import Mathlib

set_option maxHeartbeats 1600000

/-!
Shallow embedding of the JSON syntax validator from
src/build_json_parser/src/main.rs: a character-level lexer
(`lex_tokens`) and a recursive-descent parser (`parse_object`) over the
token stream, composed by `parse_json`.  Rust's owned buffer plus usize
cursor is modelled by processing the remaining suffix of the input
list; the cursor at position p corresponds to the suffix
`input.drop p`, and cursor advance corresponds to moving to a shorter
suffix.  Loops whose Rust termination argument is cursor progress are
modelled with an explicit fuel parameter together with theorems showing
that the canonical fuel never runs out.
-/

namespace JsonV

/-- Tokens produced by the lexer (`enum Token`, main.rs lines 6-18).
The source's `Number` variant carries the `f64` obtained by parsing the
lexed run; the validator never inspects that value, and the run
determines it, so the model's `number` carries the run itself. -/
inductive Token where
  | leftBrace
  | rightBrace
  | leftBracket
  | rightBracket
  | string (s : String)
  | number (s : String)
  | boolean (b : Bool)
  | null
  | colon
  | comma
  deriving DecidableEq, Repr

/-- Model of `Lexer::read_while` (main.rs 42-54): the greedily consumed
run together with the remaining input. -/
def read_while (p : Char → Bool) : List Char → List Char × List Char
  | [] => ([], [])
  | c :: cs =>
    if p c then
      let r := read_while p cs
      (c :: r.1, r.2)
    else
      ([], c :: cs)

/-- Model of `Lexer::lex_string` (main.rs 56-75), entered after the
opening quote has already been consumed: characters are accumulated
verbatim until a closing quote. -/
def lex_string : List Char → Except String (String × List Char)
  | [] => .error "Unterminated string literal"
  | c :: cs =>
    if c = '"' then
      .ok ("", cs)
    else if c = '\\' then
      .error "Escape sequences not yet supported"
    else if c = '\n' then
      .error "Unterminated string literal"
    else
      match lex_string cs with
      | .ok (s, r) => .ok (⟨c :: s.data⟩, r)
      | .error e => .error e

/-- Strips one leading sign character, the `Sign?` production of the
grammar documented for Rust's `f64::from_str`. -/
def strip_sign : List Char → List Char
  | '+' :: cs => cs
  | '-' :: cs => cs
  | cs => cs

/-- Recognises the optional exponent tail `('e'|'E') Sign? Digit+` of
the grammar documented for Rust's `f64::from_str`; an empty tail is
valid.  JSON's exponent production coincides with this one. -/
def exp_valid (cs : List Char) : Bool :=
  match cs with
  | [] => true
  | c :: rest =>
    (c == 'e' || c == 'E') &&
      (let r := read_while Char.isDigit (strip_sign rest)
       !r.1.isEmpty && r.2.isEmpty)

/-- Success condition of Rust's `str::parse::<f64>` (used at main.rs
82), following the grammar in the standard library documentation:
`Sign? (Digit+ ('.' Digit*)? Exp? | '.' Digit+ Exp?)`.  The `inf`,
`infinity` and `NaN` forms are omitted because their letters are
outside the alphabet that `read_while` admits into a number run, so
`lex_number` can never pass them in.  Out-of-range decimal literals
saturate to infinity in Rust rather than failing, so success of the
parse is purely syntactic. -/
def f64_syntax_valid (cs : List Char) : Bool :=
  let body := strip_sign cs
  let ip := read_while Char.isDigit body
  match ip.2 with
  | '.' :: rest =>
    let fp := read_while Char.isDigit rest
    (!ip.1.isEmpty || !fp.1.isEmpty) && exp_valid fp.2
  | _ => !ip.1.isEmpty && exp_valid ip.2

/-- The character class greedily consumed into a number run
(main.rs 78-80). -/
def is_number_char (c : Char) : Bool :=
  c.isDigit || c == '-' || c == '.' || c == 'e' || c == 'E' || c == '+'

/-- Model of `Lexer::lex_number` (main.rs 77-84). -/
def lex_number (cs : List Char) : Except String (String × List Char) :=
  let r := read_while is_number_char cs
  if f64_syntax_valid r.1 then .ok (⟨r.1⟩, r.2) else .error "Invalid number format"

/-- Model of `Lexer::lex_identifier` (main.rs 86-95); `Char.isAlpha`
matches Rust's `char::is_ascii_alphabetic`. -/
def lex_identifier (cs : List Char) : Except String (Token × List Char) :=
  let r := read_while Char.isAlpha cs
  match (⟨r.1⟩ : String) with
  | "true" => .ok (.boolean true, r.2)
  | "false" => .ok (.boolean false, r.2)
  | "null" => .ok (.null, r.2)
  | _ => .error "Invalid identifier"

/-- Rust's `char::is_whitespace`: the Unicode `White_Space` property
(the 25 code points listed in the Unicode data file). -/
def rust_is_whitespace (c : Char) : Bool :=
  decide (c = ' ' ∨ c = '\t' ∨ c = '\n' ∨ c.toNat = 0xb ∨ c.toNat = 0xc ∨ c = '\r' ∨
    c.toNat = 0x85 ∨ c.toNat = 0xa0 ∨ c.toNat = 0x1680 ∨
    (0x2000 ≤ c.toNat ∧ c.toNat ≤ 0x200a) ∨
    c.toNat = 0x2028 ∨ c.toNat = 0x2029 ∨ c.toNat = 0x202f ∨ c.toNat = 0x205f ∨
    c.toNat = 0x3000)

/-- One iteration of the `lex_tokens` loop body (main.rs 101-143): the
dispatch on the current character, producing a token, a skipped
whitespace character (`none`), or the first lexical error.  The guard
order mirrors the source's match arms. -/
def lex_step : List Char → Except String (Option Token × List Char)
  | [] => .ok (none, [])
  | c :: cs =>
    if c = '{' then .ok (some .leftBrace, cs)
    else if c = '}' then .ok (some .rightBrace, cs)
    else if c = '[' then .ok (some .leftBracket, cs)
    else if c = ']' then .ok (some .rightBracket, cs)
    else if c = ':' then .ok (some .colon, cs)
    else if c = ',' then .ok (some .comma, cs)
    else if c = '"' then
      match lex_string cs with
      | .ok (s, r) => .ok (some (.string s), r)
      | .error e => .error e
    else if c.isDigit || c == '-' then
      match lex_number (c :: cs) with
      | .ok (s, r) => .ok (some (.number s), r)
      | .error e => .error e
    else if c.isAlpha then
      match lex_identifier (c :: cs) with
      | .ok (t, r) => .ok (some t, r)
      | .error e => .error e
    else if rust_is_whitespace c then .ok (none, cs)
    else .error "Invalid character in JSON"

/-- Model of `Lexer::lex_tokens` (main.rs 98-146).  The Rust loop
terminates because every iteration advances the cursor; here that
argument appears as an explicit fuel parameter, and the theorems below
show that `input.length` steps of fuel always suffice, so the sentinel
fuel error is unreachable from `lex_all`. -/
def lex_tokens : Nat → List Char → Except String (List Token)
  | _, [] => .ok []
  | 0, _ :: _ => .error "lexer out of fuel"
  | fuel + 1, c :: cs =>
    match lex_step (c :: cs) with
    | .error e => .error e
    | .ok (ot, rest) =>
      match lex_tokens fuel rest with
      | .error e => .error e
      | .ok ts =>
        .ok (match ot with
             | some t => t :: ts
             | none => ts)

/-- The lexer at its canonical fuel: one unit per input character. -/
def lex_all (cs : List Char) : Except String (List Token) :=
  lex_tokens cs.length cs

mutual

/-- Model of `Parser::parse_value` (main.rs 170-183).  Functions take
and return the remaining token suffix; returning a suffix models the
cursor advancing past the consumed tokens. -/
def parse_value : Nat → List Token → Except String (List Token)
  | 0, _ => .error "parser out of fuel"
  | fuel + 1, ts =>
    match ts with
    | .leftBrace :: _ => parse_object fuel ts
    | .leftBracket :: _ => parse_array fuel ts
    | .string _ :: rest => .ok rest
    | .number _ :: rest => .ok rest
    | .boolean _ :: rest => .ok rest
    | .null :: rest => .ok rest
    | _ => .error "Expected value"

/-- Model of `Parser::parse_array` entry (main.rs 185-190): consume the
opening bracket, then run the element loop. -/
def parse_array : Nat → List Token → Except String (List Token)
  | 0, _ => .error "parser out of fuel"
  | fuel + 1, ts =>
    match ts with
    | .leftBracket :: rest => array_loop fuel true rest
    | _ => .error "Expected '['"

/-- Model of the `parse_array` loop (main.rs 192-229).  The branch
order mirrors the source's match arms: closing bracket (either state),
then comma in the after-element state with its trailing-comma
lookahead, then the missing-separator error, then the fall-through to
`parse_value`.  Exhausting the tokens inside the loop is the
`Unexpected end of input` case and is checked before fuel, as the Rust
`while let` checks it on every iteration. -/
def array_loop : Nat → Bool → List Token → Except String (List Token)
  | _, _, [] => .error "Unexpected end of input"
  | 0, _, _ :: _ => .error "parser out of fuel"
  | fuel + 1, first, t :: rest =>
    if t = .rightBracket then .ok rest
    else if first then
      match parse_value fuel (t :: rest) with
      | .ok r => array_loop fuel false r
      | .error e => .error e
    else if t = .comma then
      match rest with
      | .rightBracket :: _ => .error "Trailing comma not allowed"
      | _ =>
        match parse_value fuel rest with
        | .ok r => array_loop fuel false r
        | .error e => .error e
    else .error "Expected ',' or ']'"

/-- Model of `Parser::parse_object` entry (main.rs 232-237): consume
the opening brace, then run the member loop. -/
def parse_object : Nat → List Token → Except String (List Token)
  | 0, _ => .error "parser out of fuel"
  | fuel + 1, ts =>
    match ts with
    | .leftBrace :: rest => object_loop fuel true rest
    | _ => .error "Expected '\x7b'"

/-- Model of the `parse_object` loop (main.rs 239-296), with the same
branch order as `array_loop` and the key/colon/value sequence of the
loop body factored into `parse_pair`. -/
def object_loop : Nat → Bool → List Token → Except String (List Token)
  | _, _, [] => .error "Unexpected end of input"
  | 0, _, _ :: _ => .error "parser out of fuel"
  | fuel + 1, first, t :: rest =>
    if t = .rightBrace then .ok rest
    else if first then
      match parse_pair fuel (t :: rest) with
      | .ok r => object_loop fuel false r
      | .error e => .error e
    else if t = .comma then
      match rest with
      | .rightBrace :: _ => .error "Trailing comma not allowed"
      | _ =>
        match parse_pair fuel rest with
        | .ok r => object_loop fuel false r
        | .error e => .error e
    else .error "Expected ',' or '\x7d'"

/-- The key/colon/value sequence of the `parse_object` loop body
(main.rs 278-291). -/
def parse_pair : Nat → List Token → Except String (List Token)
  | 0, _ => .error "parser out of fuel"
  | fuel + 1, .string _ :: rest =>
    match rest with
    | .colon :: rest2 => parse_value fuel rest2
    | _ => .error "Expected ':'"
  | _ + 1, _ => .error "Expected string key"

end

/-- Model of the `parse_json` helper (main.rs 342-347), the composition
the spec calls `validate`: lex the whole input, then run the top-level
object parser on the token stream.  `4 * ts.length + 8` units of fuel
always suffice (see the fuel lemmas below); the source needs no fuel
because its cursor progress is its termination argument. -/
def parse_json (s : String) : Except String Unit :=
  match lex_all s.data with
  | .error e => .error e
  | .ok ts =>
    match parse_object (4 * ts.length + 8) ts with
    | .ok _ => .ok ()
    | .error e => .error e

/-- The lexical diagnostics enumerated in spec section 7. -/
def lex_error_msgs : List String :=
  ["Unterminated string literal", "Escape sequences not yet supported",
   "Invalid number format", "Invalid identifier", "Invalid character in JSON"]

/-- The syntactic diagnostics enumerated in spec section 7. -/
def parse_error_msgs : List String :=
  ["Expected '\x7b'", "Expected '['", "Expected string key", "Expected ':'",
   "Expected value", "Expected ',' or '\x7d'", "Expected ',' or ']'",
   "Trailing comma not allowed", "Unexpected end of input"]

/-- The syntactic diagnostics that can escape from inside the two
parsing loops and the value parser, i.e. everything syntactic except
the two missing-opener messages. -/
def inner_parse_msgs : List String :=
  ["Expected value", "Expected string key", "Expected ':'",
   "Expected ',' or '\x7d'", "Expected ',' or ']'",
   "Trailing comma not allowed", "Unexpected end of input"]

/-- JSON insignificant whitespace: the four characters of the JSON
grammar (each of them also satisfies Rust's `char::is_whitespace`). -/
def json_ws (c : Char) : Bool :=
  decide (c = ' ' ∨ c = '\t' ∨ c = '\n' ∨ c = '\r')

/-- A run of JSON whitespace. -/
def Ws (w : List Char) : Prop := ∀ c ∈ w, json_ws c = true

/-- Characters allowed in the body of a supported string literal:
anything except the closing quote, a backslash (escape sequences are
unsupported) and a raw newline. -/
def str_char (c : Char) : Bool := decide (c ≠ '"' ∧ c ≠ '\\' ∧ c ≠ '\n')

/-- A legal string-literal body under the spec's restrictions. -/
def StrChars (s : List Char) : Prop := ∀ c ∈ s, str_char c = true

/-- A nonempty run of ASCII digits. -/
def Digits (ds : List Char) : Prop := ds ≠ [] ∧ ∀ c ∈ ds, c.isDigit = true

/-- The integer part of the strict JSON number grammar: `0` alone or a
nonzero leading digit followed by digits. -/
def JsonInt (l : List Char) : Prop :=
  l = ['0'] ∨ (Digits l ∧ l.head? ≠ some '0')

/-- The strict JSON number grammar (RFC 8259): minus sign, integer
part, optional fraction, optional exponent. -/
def JsonNum (cs : List Char) : Prop :=
  ∃ sign int frac ex,
    (sign = [] ∨ sign = ['-']) ∧ JsonInt int ∧
    (frac = [] ∨ ∃ ds, Digits ds ∧ frac = '.' :: ds) ∧
    (ex = [] ∨ ∃ e s ds, (e = 'e' ∨ e = 'E') ∧ (s = [] ∨ s = ['+'] ∨ s = ['-']) ∧
      Digits ds ∧ ex = e :: (s ++ ds)) ∧
    cs = sign ++ int ++ frac ++ ex

/-- Kinds for the text-level well-formedness judgment. -/
inductive WKind | value | obj | arr | members | elements

/-- Well-formed JSON text coupled with its tokenization: `WfTT k cs ts`
says that the character list `cs` is a well-formed production of kind
`k` — restricted as in the spec to strings without escapes or embedded
newlines, strict JSON numbers, and the literals `true`, `false`,
`null` — and that its token sequence is `ts`.  Whitespace placement
follows the JSON grammar: around member keys, after colons, and around
values and elements. -/
inductive WfTT : WKind → List Char → List Token → Prop
  | str {s} : StrChars s → WfTT .value ('"' :: s ++ ['"']) [.string ⟨s⟩]
  | num {cs} : JsonNum cs → WfTT .value cs [.number ⟨cs⟩]
  | lit_true : WfTT .value ['t', 'r', 'u', 'e'] [.boolean true]
  | lit_false : WfTT .value ['f', 'a', 'l', 's', 'e'] [.boolean false]
  | lit_null : WfTT .value ['n', 'u', 'l', 'l'] [.null]
  | objV {cs ts} : WfTT .obj cs ts → WfTT .value cs ts
  | arrV {cs ts} : WfTT .arr cs ts → WfTT .value cs ts
  | objEmpty {w} : Ws w → WfTT .obj ('{' :: w ++ ['}']) [.leftBrace, .rightBrace]
  | objMembers {cs ts} : WfTT .members cs ts →
      WfTT .obj ('{' :: cs ++ ['}']) (.leftBrace :: ts ++ [.rightBrace])
  | arrEmpty {w} : Ws w → WfTT .arr ('[' :: w ++ [']']) [.leftBracket, .rightBracket]
  | arrElems {cs ts} : WfTT .elements cs ts →
      WfTT .arr ('[' :: cs ++ [']']) (.leftBracket :: ts ++ [.rightBracket])
  | memberOne {w1 k w2 w3 cs ts w4} : Ws w1 → StrChars k → Ws w2 → Ws w3 →
      WfTT .value cs ts → Ws w4 →
      WfTT .members (w1 ++ '"' :: k ++ '"' :: (w2 ++ ':' :: (w3 ++ cs ++ w4)))
        (.string ⟨k⟩ :: .colon :: ts)
  | memberCons {w1 k w2 w3 cs ts w4 cs2 ts2} : Ws w1 → StrChars k → Ws w2 → Ws w3 →
      WfTT .value cs ts → Ws w4 → WfTT .members cs2 ts2 →
      WfTT .members
        (w1 ++ '"' :: k ++ '"' :: (w2 ++ ':' :: (w3 ++ cs ++ (w4 ++ ',' :: cs2))))
        (.string ⟨k⟩ :: .colon :: ts ++ .comma :: ts2)
  | elemOne {w1 cs ts w2} : Ws w1 → WfTT .value cs ts → Ws w2 →
      WfTT .elements (w1 ++ cs ++ w2) ts
  | elemCons {w1 cs ts w2 cs2 ts2} : Ws w1 → WfTT .value cs ts → Ws w2 →
      WfTT .elements cs2 ts2 →
      WfTT .elements (w1 ++ cs ++ (w2 ++ ',' :: cs2)) (ts ++ .comma :: ts2)

/-- The spec's notion of a well-formed JSON object literal as raw text:
a section 4.2 object with the spec's lexical restrictions, possibly
surrounded by insignificant whitespace. -/
def WfJsonObjectText (cs : List Char) : Prop :=
  ∃ w1 body w2 ts, Ws w1 ∧ WfTT .obj body ts ∧ Ws w2 ∧ cs = w1 ++ body ++ w2

/-- Kinds for the token-level JSON grammar of spec section 4.2. -/
inductive TKind | value | obj | arr | members | elements

/-- The token-level JSON grammar of spec section 4.2:
`value := object | array | string | number | boolean | null`;
an object is braces around an optional comma-separated list of
key/colon/value members; an array is brackets around an optional
comma-separated list of values. -/
inductive Toks : TKind → List Token → Prop
  | str (s) : Toks .value [.string s]
  | num (s) : Toks .value [.number s]
  | boolean (b) : Toks .value [.boolean b]
  | null : Toks .value [.null]
  | objV {ts} : Toks .obj ts → Toks .value ts
  | arrV {ts} : Toks .arr ts → Toks .value ts
  | objEmpty : Toks .obj [.leftBrace, .rightBrace]
  | objMembers {ms} : Toks .members ms → Toks .obj (.leftBrace :: ms ++ [.rightBrace])
  | arrEmpty : Toks .arr [.leftBracket, .rightBracket]
  | arrElems {es} : Toks .elements es → Toks .arr (.leftBracket :: es ++ [.rightBracket])
  | memberOne (k) {v} : Toks .value v → Toks .members (.string k :: .colon :: v)
  | memberCons (k) {v ms} : Toks .value v → Toks .members ms →
      Toks .members (.string k :: .colon :: v ++ .comma :: ms)
  | elemOne {v} : Toks .value v → Toks .elements v
  | elemCons {v es} : Toks .value v → Toks .elements es → Toks .elements (v ++ .comma :: es)

/-- Intermediate judgment for object-loop soundness: `ObjRest first r`
says `r` is a token list that the member loop, entered in state
`first`, consumes completely, up to and including the closing brace. -/
inductive ObjRest : Bool → List Token → Prop
  | close (first) : ObjRest first [.rightBrace]
  | pairFirst (k) {v r} : Toks .value v → ObjRest false r →
      ObjRest true (.string k :: .colon :: v ++ r)
  | pairNext (k) {v r} : Toks .value v → ObjRest false r →
      ObjRest false (.comma :: (.string k :: .colon :: v ++ r))

/-- Intermediate judgment for array-loop soundness. -/
inductive ArrRest : Bool → List Token → Prop
  | close (first) : ArrRest first [.rightBracket]
  | elemFirst {v r} : Toks .value v → ArrRest false r → ArrRest true (v ++ r)
  | elemNext {v r} : Toks .value v → ArrRest false r → ArrRest false (.comma :: (v ++ r))

/-- Specification of what the member loop can still consume, as a plain
grammar shape. -/
def objRestSpec (b : Bool) (q : List Token) : Prop :=
  q = [.rightBrace] ∨ ∃ ms, Toks .members ms ∧
    q = (if b then ms ++ [.rightBrace] else .comma :: (ms ++ [.rightBrace]))

/-- Specification of what the element loop can still consume. -/
def arrRestSpec (b : Bool) (q : List Token) : Prop :=
  q = [.rightBracket] ∨ ∃ es, Toks .elements es ∧
    q = (if b then es ++ [.rightBracket] else .comma :: (es ++ [.rightBracket]))

/-- Characters that may legally follow a complete JSON value in
context: end of input, a separating comma, a closing delimiter, or
whitespace.  Used as the boundary condition for maximal-run tokens. -/
def Follows (rest : List Char) : Prop :=
  match rest with
  | [] => True
  | c :: _ => c = ',' ∨ c = '}' ∨ c = ']' ∨ json_ws c = true

/-- Statement schema for parser completeness, per grammar kind: feeding
a well-formed production's tokens followed by any continuation to the
matching parser function succeeds and consumes exactly the production,
for every fuel above a linear bound.  For the loop kinds the schema
covers both loop states (`first` and after-a-comma). -/
def ParseCompleteSpec : WKind → List Token → Prop
  | .value, ts => ∀ tr fuel, 4 * ts.length + 2 ≤ fuel →
      parse_value fuel (ts ++ tr) = .ok tr
  | .obj, ts => ∀ tr fuel, 4 * ts.length + 1 ≤ fuel →
      parse_object fuel (ts ++ tr) = .ok tr
  | .arr, ts => ∀ tr fuel, 4 * ts.length + 1 ≤ fuel →
      parse_array fuel (ts ++ tr) = .ok tr
  | .members, ts => ∀ tr fuel, 4 * ts.length + 8 ≤ fuel →
      object_loop fuel true (ts ++ .rightBrace :: tr) = .ok tr ∧
      object_loop fuel false (.comma :: (ts ++ .rightBrace :: tr)) = .ok tr
  | .elements, ts => ∀ tr fuel, 4 * ts.length + 8 ≤ fuel →
      array_loop fuel true (ts ++ .rightBracket :: tr) = .ok tr ∧
      array_loop fuel false (.comma :: (ts ++ .rightBracket :: tr)) = .ok tr

/-! Basic properties of `read_while`. -/

theorem read_while_eq_take_drop (p : Char → Bool) : ∀ cs : List Char,
    read_while p cs = (cs.takeWhile p, cs.dropWhile p) := by
  intro cs
  induction cs with
  | nil => rfl
  | cons c cs ih =>
    cases h : p c <;>
      simp [read_while, h, ih, List.takeWhile_cons, List.dropWhile_cons]

theorem read_while_stop {p : Char → Bool} {ys : List Char}
    (h : ∀ c, ys.head? = some c → p c = false) : read_while p ys = ([], ys) := by
  cases ys with
  | nil => rfl
  | cons c r => simp [read_while, h c rfl]

theorem read_while_all {p : Char → Bool} {xs ys : List Char}
    (h1 : ∀ c ∈ xs, p c = true)
    (h2 : ∀ c, ys.head? = some c → p c = false) :
    read_while p (xs ++ ys) = (xs, ys) := by
  induction xs with
  | nil => simpa using read_while_stop h2
  | cons c cs ih =>
    have hc : p c = true := h1 c (by simp)
    have := ih (fun c hc2 => h1 c (by simp [hc2]))
    simp [read_while, hc, this]

theorem read_while_snd_length (p : Char → Bool) : ∀ cs : List Char,
    (read_while p cs).2.length ≤ cs.length := by
  intro cs
  induction cs with
  | nil => simp [read_while]
  | cons c cs ih =>
    cases h : p c <;> simp [read_while, h]
    omega

theorem read_while_snd_suffix (p : Char → Bool) : ∀ cs : List Char,
    (read_while p cs).2 <:+ cs := by
  intro cs
  induction cs with
  | nil => simp [read_while]
  | cons c cs ih =>
    cases h : p c <;> simp [read_while, h]
    exact ih.trans (List.suffix_cons c cs)

theorem read_while_snd_head {p : Char → Bool} : ∀ {cs c r},
    (read_while p cs).2 = c :: r → p c = false := by
  intro cs
  induction cs with
  | nil => intro c r h; simp [read_while] at h
  | cons x xs ih =>
    intro c r h
    cases hx : p x with
    | true => simp [read_while, hx] at h; exact ih h
    | false =>
      simp [read_while, hx] at h
      obtain ⟨h1, -⟩ := h
      rw [← h1]; exact hx

/-! Basic properties of `lex_string`. -/

theorem string_data_mk (l : List Char) : (⟨l⟩ : String).data = l := rfl

theorem lex_string_complete {pre : List Char} (rest : List Char) (h : StrChars pre) :
    lex_string (pre ++ '"' :: rest) = .ok (⟨pre⟩, rest) := by
  induction pre with
  | nil => simp [lex_string]
  | cons c cs ih =>
    have hc := h c (by simp)
    simp only [str_char, decide_eq_true_eq] at hc
    obtain ⟨h1, h2, h3⟩ := hc
    have := ih (fun c hc2 => h c (by simp [hc2]))
    simp [lex_string, h1, h2, h3, this, string_data_mk]

theorem lex_string_escape {pre : List Char} (rest : List Char) (h : StrChars pre) :
    lex_string (pre ++ '\\' :: rest) = .error "Escape sequences not yet supported" := by
  induction pre with
  | nil => simp [lex_string]
  | cons c cs ih =>
    have hc := h c (by simp)
    simp only [str_char, decide_eq_true_eq] at hc
    obtain ⟨h1, h2, h3⟩ := hc
    have := ih (fun c hc2 => h c (by simp [hc2]))
    simp [lex_string, h1, h2, h3, this]

theorem lex_string_newline {pre : List Char} (rest : List Char) (h : StrChars pre) :
    lex_string (pre ++ '\n' :: rest) = .error "Unterminated string literal" := by
  induction pre with
  | nil => simp [lex_string]
  | cons c cs ih =>
    have hc := h c (by simp)
    simp only [str_char, decide_eq_true_eq] at hc
    obtain ⟨h1, h2, h3⟩ := hc
    have := ih (fun c hc2 => h c (by simp [hc2]))
    simp [lex_string, h1, h2, h3, this]

theorem lex_string_eof {pre : List Char} (h : StrChars pre) :
    lex_string pre = .error "Unterminated string literal" := by
  induction pre with
  | nil => simp [lex_string]
  | cons c cs ih =>
    have hc := h c (by simp)
    simp only [str_char, decide_eq_true_eq] at hc
    obtain ⟨h1, h2, h3⟩ := hc
    have := ih (fun c hc2 => h c (by simp [hc2]))
    simp [lex_string, h1, h2, h3, this]

theorem lex_string_ok_length : ∀ {cs : List Char} {s : String} {r : List Char},
    lex_string cs = .ok (s, r) → r.length < cs.length := by
  intro cs
  induction cs with
  | nil => intro s r h; simp [lex_string] at h
  | cons c cs ih =>
    intro s r h
    simp only [lex_string] at h
    split_ifs at h with h1 h2 h3
    · simp only [Except.ok.injEq, Prod.mk.injEq] at h
      rw [← h.2]
      simp only [List.length_cons]
      omega
    · split at h
      · rename_i s' r' heq
        simp only [Except.ok.injEq, Prod.mk.injEq] at h
        rw [← h.2]
        have := ih heq
        simp only [List.length_cons]
        omega
      · simp at h

theorem lex_string_ok_suffix : ∀ {cs : List Char} {s : String} {r : List Char},
    lex_string cs = .ok (s, r) → r <:+ cs := by
  intro cs
  induction cs with
  | nil => intro s r h; simp [lex_string] at h
  | cons c cs ih =>
    intro s r h
    simp only [lex_string] at h
    split_ifs at h with h1 h2 h3
    · simp only [Except.ok.injEq, Prod.mk.injEq] at h
      rw [← h.2]
      exact List.suffix_cons c cs
    · split at h
      · rename_i s' r' heq
        simp only [Except.ok.injEq, Prod.mk.injEq] at h
        rw [← h.2]
        exact (ih heq).trans (List.suffix_cons c cs)
      · simp at h

theorem lex_string_error : ∀ {cs : List Char} {e : String},
    lex_string cs = .error e →
    e = "Unterminated string literal" ∨ e = "Escape sequences not yet supported" := by
  intro cs
  induction cs with
  | nil =>
    intro e h
    simp only [lex_string, Except.error.injEq] at h
    exact .inl h.symm
  | cons c cs ih =>
    intro e h
    simp only [lex_string] at h
    split_ifs at h with h1 h2 h3
    · simp only [Except.error.injEq] at h
      exact .inr h.symm
    · simp only [Except.error.injEq] at h
      exact .inl h.symm
    · split at h
      · simp at h
      · rename_i heq
        simp only [Except.error.injEq] at h
        subst h
        exact ih heq

/-! Character-class facts used to resolve the dispatch order of
`lex_step`. -/

theorem char_eq_iff_toNat {c d : Char} : c = d ↔ c.toNat = d.toNat := by
  constructor
  · rintro rfl; rfl
  · intro h
    exact Char.ext (UInt32.ext h)

theorem char_isDigit_iff {c : Char} : c.isDigit = true ↔ 48 ≤ c.toNat ∧ c.toNat ≤ 57 := by
  have e1 : (UInt32.toBitVec 48).toNat = 48 := rfl
  have e2 : (UInt32.toBitVec 57).toNat = 57 := rfl
  simp only [Char.isDigit, Bool.and_eq_true, decide_eq_true_eq, ge_iff_le,
    UInt32.le_def, BitVec.le_def, e1, e2]
  exact Iff.rfl

theorem char_isAlpha_iff {c : Char} : c.isAlpha = true ↔
    (65 ≤ c.toNat ∧ c.toNat ≤ 90) ∨ (97 ≤ c.toNat ∧ c.toNat ≤ 122) := by
  have e1 : (UInt32.toBitVec 65).toNat = 65 := rfl
  have e2 : (UInt32.toBitVec 90).toNat = 90 := rfl
  have e3 : (UInt32.toBitVec 97).toNat = 97 := rfl
  have e4 : (UInt32.toBitVec 122).toNat = 122 := rfl
  simp only [Char.isAlpha, Char.isUpper, Char.isLower, Bool.or_eq_true,
    Bool.and_eq_true, decide_eq_true_eq, ge_iff_le, UInt32.le_def, BitVec.le_def,
    e1, e2, e3, e4]
  exact Iff.rfl

theorem digit_or_minus_not_structural {c : Char} (h : (c.isDigit || c == '-') = true) :
    c ≠ '{' ∧ c ≠ '}' ∧ c ≠ '[' ∧ c ≠ ']' ∧ c ≠ ':' ∧ c ≠ ',' ∧ c ≠ '"' := by
  rw [Bool.or_eq_true, beq_iff_eq, char_isDigit_iff, char_eq_iff_toNat] at h
  have hm : ('-').toNat = 45 := rfl
  have l1 : ('{').toNat = 123 := rfl
  have l2 : ('}').toNat = 125 := rfl
  have l3 : ('[').toNat = 91 := rfl
  have l4 : (']').toNat = 93 := rfl
  have l5 : (':').toNat = 58 := rfl
  have l6 : (',').toNat = 44 := rfl
  have l7 : ('"').toNat = 34 := rfl
  rw [hm] at h
  refine ⟨?_, ?_, ?_, ?_, ?_, ?_, ?_⟩ <;>
    · intro he
      rw [char_eq_iff_toNat] at he
      simp only [l1, l2, l3, l4, l5, l6, l7] at he
      omega

theorem alpha_not_structural {c : Char} (h : c.isAlpha = true) :
    c ≠ '{' ∧ c ≠ '}' ∧ c ≠ '[' ∧ c ≠ ']' ∧ c ≠ ':' ∧ c ≠ ',' ∧ c ≠ '"' ∧
      (c.isDigit || c == '-') = false := by
  rw [char_isAlpha_iff] at h
  have hm : ('-').toNat = 45 := rfl
  have l1 : ('{').toNat = 123 := rfl
  have l2 : ('}').toNat = 125 := rfl
  have l3 : ('[').toNat = 91 := rfl
  have l4 : (']').toNat = 93 := rfl
  have l5 : (':').toNat = 58 := rfl
  have l6 : (',').toNat = 44 := rfl
  have l7 : ('"').toNat = 34 := rfl
  refine ⟨?_, ?_, ?_, ?_, ?_, ?_, ?_, ?_⟩
  · intro he
    rw [char_eq_iff_toNat] at he
    simp only [l1] at he
    omega
  · intro he
    rw [char_eq_iff_toNat] at he
    simp only [l2] at he
    omega
  · intro he
    rw [char_eq_iff_toNat] at he
    simp only [l3] at he
    omega
  · intro he
    rw [char_eq_iff_toNat] at he
    simp only [l4] at he
    omega
  · intro he
    rw [char_eq_iff_toNat] at he
    simp only [l5] at he
    omega
  · intro he
    rw [char_eq_iff_toNat] at he
    simp only [l6] at he
    omega
  · intro he
    rw [char_eq_iff_toNat] at he
    simp only [l7] at he
    omega
  · rw [Bool.or_eq_false_iff]
    constructor
    · rw [Bool.eq_false_iff]
      intro hd
      rw [char_isDigit_iff] at hd
      omega
    · rw [Bool.eq_false_iff]
      intro hd
      rw [beq_iff_eq, char_eq_iff_toNat, hm] at hd
      omega

theorem ws_facts {c : Char} (h : json_ws c = true) :
    c ≠ '{' ∧ c ≠ '}' ∧ c ≠ '[' ∧ c ≠ ']' ∧ c ≠ ':' ∧ c ≠ ',' ∧ c ≠ '"' ∧
      (c.isDigit || c == '-') = false ∧ c.isAlpha = false ∧
      rust_is_whitespace c = true ∧ is_number_char c = false := by
  simp only [json_ws, decide_eq_true_eq] at h
  rcases h with rfl | rfl | rfl | rfl <;> exact ⟨by decide, by decide, by decide,
    by decide, by decide, by decide, by decide, by decide, by decide, by decide, by decide⟩

/-! Evaluation lemmas for `lex_step`, one per dispatch class. -/

theorem lex_step_lbrace (cs : List Char) : lex_step ('{' :: cs) = .ok (some .leftBrace, cs) := rfl

theorem lex_step_rbrace (cs : List Char) : lex_step ('}' :: cs) = .ok (some .rightBrace, cs) := rfl

theorem lex_step_lbracket (cs : List Char) : lex_step ('[' :: cs) = .ok (some .leftBracket, cs) := rfl

theorem lex_step_rbracket (cs : List Char) : lex_step (']' :: cs) = .ok (some .rightBracket, cs) := rfl

theorem lex_step_colon (cs : List Char) : lex_step (':' :: cs) = .ok (some .colon, cs) := rfl

theorem lex_step_comma (cs : List Char) : lex_step (',' :: cs) = .ok (some .comma, cs) := rfl

theorem lex_step_quote (cs : List Char) : lex_step ('"' :: cs) =
    match lex_string cs with
    | .ok (s, r) => .ok (some (.string s), r)
    | .error e => .error e := rfl

theorem lex_step_num {c : Char} (cs : List Char) (h : (c.isDigit || c == '-') = true) :
    lex_step (c :: cs) =
      match lex_number (c :: cs) with
      | .ok (s, r) => .ok (some (.number s), r)
      | .error e => .error e := by
  obtain ⟨h1, h2, h3, h4, h5, h6, h7⟩ := digit_or_minus_not_structural h
  simp [lex_step, h1, h2, h3, h4, h5, h6, h7, h]

theorem lex_step_alpha {c : Char} (cs : List Char) (h : c.isAlpha = true) :
    lex_step (c :: cs) =
      match lex_identifier (c :: cs) with
      | .ok (t, r) => .ok (some t, r)
      | .error e => .error e := by
  obtain ⟨h1, h2, h3, h4, h5, h6, h7, h8⟩ := alpha_not_structural h
  simp [lex_step, h1, h2, h3, h4, h5, h6, h7, h8, h]

theorem lex_step_ws {c : Char} (cs : List Char) (h : json_ws c = true) :
    lex_step (c :: cs) = .ok (none, cs) := by
  obtain ⟨h1, h2, h3, h4, h5, h6, h7, h8, h9, h10, -⟩ := ws_facts h
  simp [lex_step, h1, h2, h3, h4, h5, h6, h7, h8, h9, h10]

/-! Progress and error classification for the lexer. -/

theorem read_while_cons_pos {p : Char → Bool} {c : Char} (cs : List Char) (h : p c = true) :
    read_while p (c :: cs) = (c :: (read_while p cs).1, (read_while p cs).2) := by
  simp [read_while, h]

theorem lex_number_ok_rest {cs : List Char} {s : String} {r : List Char}
    (h : lex_number cs = .ok (s, r)) : r = (read_while is_number_char cs).2 := by
  simp only [lex_number] at h
  split_ifs at h
  simp only [Except.ok.injEq, Prod.mk.injEq] at h
  exact h.2.symm

theorem lex_identifier_ok_rest {cs : List Char} {t : Token} {r : List Char}
    (h : lex_identifier cs = .ok (t, r)) : r = (read_while Char.isAlpha cs).2 := by
  simp only [lex_identifier] at h
  split at h
  · simp only [Except.ok.injEq, Prod.mk.injEq] at h
    exact h.2.symm
  · simp only [Except.ok.injEq, Prod.mk.injEq] at h
    exact h.2.symm
  · simp only [Except.ok.injEq, Prod.mk.injEq] at h
    exact h.2.symm
  · simp at h

theorem lex_number_error {cs : List Char} {e : String}
    (h : lex_number cs = .error e) : e = "Invalid number format" := by
  simp only [lex_number] at h
  split_ifs at h
  simp only [Except.error.injEq] at h
  exact h.symm

theorem lex_identifier_error {cs : List Char} {e : String}
    (h : lex_identifier cs = .error e) : e = "Invalid identifier" := by
  simp only [lex_identifier] at h
  split at h
  · simp at h
  · simp at h
  · simp at h
  · simp only [Except.error.injEq] at h
    exact h.symm

theorem lex_step_progress : ∀ {c : Char} {cs : List Char} {ot : Option Token}
    {rest : List Char}, lex_step (c :: cs) = .ok (ot, rest) →
    rest.length ≤ cs.length ∧ rest <:+ (c :: cs) := by
  intro c cs ot rest h
  simp only [lex_step] at h
  split_ifs at h with h1 h2 h3 h4 h5 h6 h7 h8 h9 h10
  · simp only [Except.ok.injEq, Prod.mk.injEq] at h
    rw [← h.2]
    exact ⟨le_refl _, List.suffix_cons c cs⟩
  · simp only [Except.ok.injEq, Prod.mk.injEq] at h
    rw [← h.2]
    exact ⟨le_refl _, List.suffix_cons c cs⟩
  · simp only [Except.ok.injEq, Prod.mk.injEq] at h
    rw [← h.2]
    exact ⟨le_refl _, List.suffix_cons c cs⟩
  · simp only [Except.ok.injEq, Prod.mk.injEq] at h
    rw [← h.2]
    exact ⟨le_refl _, List.suffix_cons c cs⟩
  · simp only [Except.ok.injEq, Prod.mk.injEq] at h
    rw [← h.2]
    exact ⟨le_refl _, List.suffix_cons c cs⟩
  · simp only [Except.ok.injEq, Prod.mk.injEq] at h
    rw [← h.2]
    exact ⟨le_refl _, List.suffix_cons c cs⟩
  · split at h
    · rename_i s r heq
      simp only [Except.ok.injEq, Prod.mk.injEq] at h
      rw [← h.2]
      exact ⟨Nat.le_of_lt (lex_string_ok_length heq),
        (lex_string_ok_suffix heq).trans (List.suffix_cons c cs)⟩
    · cases h
  · split at h
    · rename_i s r heq
      simp only [Except.ok.injEq, Prod.mk.injEq] at h
      rw [← h.2]
      have hc : is_number_char c = true := by
        simp only [is_number_char, Bool.or_eq_true] at h8 ⊢
        rcases h8 with h8 | h8
        · exact .inl (.inl (.inl (.inl (.inl h8))))
        · exact .inl (.inl (.inl (.inl (.inr h8))))
      have hrw := lex_number_ok_rest heq
      rw [read_while_cons_pos cs hc] at hrw
      rw [hrw]
      exact ⟨read_while_snd_length _ cs,
        (read_while_snd_suffix _ cs).trans (List.suffix_cons c cs)⟩
    · cases h
  · split at h
    · rename_i t r heq
      simp only [Except.ok.injEq, Prod.mk.injEq] at h
      rw [← h.2]
      have hrw := lex_identifier_ok_rest heq
      rw [read_while_cons_pos cs h9] at hrw
      rw [hrw]
      exact ⟨read_while_snd_length _ cs,
        (read_while_snd_suffix _ cs).trans (List.suffix_cons c cs)⟩
    · cases h
  · simp only [Except.ok.injEq, Prod.mk.injEq] at h
    rw [← h.2]
    exact ⟨le_refl _, List.suffix_cons c cs⟩

theorem lex_step_error : ∀ {cs : List Char} {e : String},
    lex_step cs = .error e → e ∈ lex_error_msgs := by
  intro cs e h
  match cs with
  | [] => simp [lex_step] at h
  | c :: cs =>
    simp only [lex_step] at h
    split_ifs at h with h1 h2 h3 h4 h5 h6 h7 h8 h9 h10
    · split at h
      · cases h
      · rename_i heq
        simp only [Except.error.injEq] at h
        subst h
        rcases lex_string_error heq with h | h <;> simp [lex_error_msgs, h]
    · split at h
      · cases h
      · rename_i heq
        simp only [Except.error.injEq] at h
        subst h
        simp [lex_error_msgs, lex_number_error heq]
    · split at h
      · cases h
      · rename_i heq
        simp only [Except.error.injEq] at h
        subst h
        simp [lex_error_msgs, lex_identifier_error heq]
    · simp only [Except.error.injEq] at h
      subst h
      simp [lex_error_msgs]

theorem lex_tokens_fuel : ∀ (k : Nat) (cs : List Char), cs.length ≤ k →
    ∀ n, cs.length ≤ n → lex_tokens n cs = lex_tokens cs.length cs := by
  intro k
  induction k with
  | zero =>
    intro cs hcs n _
    match cs with
    | [] =>
      match n with
      | 0 => rfl
      | _ + 1 => rfl
  | succ k ih =>
    intro cs hcs n hn
    match cs with
    | [] =>
      match n with
      | 0 => rfl
      | _ + 1 => rfl
    | c :: cs' =>
      match n with
      | n' + 1 =>
        simp only [List.length_cons, lex_tokens]
        cases hstep : lex_step (c :: cs') with
        | error e => simp only [hstep]
        | ok pr =>
          obtain ⟨ot, rest⟩ := pr
          simp only [hstep]
          obtain ⟨hl, -⟩ := lex_step_progress hstep
          have e1 : lex_tokens n' rest = lex_tokens rest.length rest := by
            apply ih rest (by simp at hcs; omega) n' (by simp at hn; omega)
          have e2 : lex_tokens cs'.length rest = lex_tokens rest.length rest := by
            apply ih rest (by simp at hcs; omega) cs'.length hl
          rw [e1, e2]

theorem lex_all_cons_ok {c : Char} {cs : List Char} {ot : Option Token} {rest : List Char}
    (h : lex_step (c :: cs) = .ok (ot, rest)) :
    lex_all (c :: cs) =
      match lex_all rest with
      | .error e => .error e
      | .ok ts =>
        .ok (match ot with
             | some t => t :: ts
             | none => ts) := by
  obtain ⟨hl, -⟩ := lex_step_progress h
  unfold lex_all
  simp only [List.length_cons, lex_tokens, h]
  rw [lex_tokens_fuel cs.length rest hl cs.length hl]
  cases ot <;> rfl

theorem lex_all_cons_error {c : Char} {cs : List Char} {e : String}
    (h : lex_step (c :: cs) = .error e) : lex_all (c :: cs) = .error e := by
  unfold lex_all
  simp only [List.length_cons, lex_tokens, h]

theorem lex_tokens_error : ∀ (n : Nat) (cs : List Char) (e : String),
    lex_tokens n cs = .error e →
    e ∈ lex_error_msgs ∨ (e = "lexer out of fuel" ∧ n < cs.length) := by
  intro n
  induction n with
  | zero =>
    intro cs e h
    match cs with
    | [] => cases h
    | c :: cs' =>
      simp only [lex_tokens, Except.error.injEq] at h
      exact .inr ⟨h.symm, by simp⟩
  | succ n ih =>
    intro cs e h
    match cs with
    | [] => cases h
    | c :: cs' =>
      simp only [lex_tokens] at h
      cases hstep : lex_step (c :: cs') with
      | error e' =>
        simp only [hstep, Except.error.injEq] at h
        subst h
        exact .inl (lex_step_error hstep)
      | ok pr =>
        obtain ⟨ot, rest⟩ := pr
        simp only [hstep] at h
        cases hrec : lex_tokens n rest with
        | error e2 =>
          simp only [hrec, Except.error.injEq] at h
          subst h
          rcases ih rest e2 hrec with hm | ⟨he, hlen⟩
          · exact .inl hm
          · obtain ⟨hl, -⟩ := lex_step_progress hstep
            exact .inr ⟨he, by simp only [List.length_cons]; omega⟩
        | ok ts =>
          simp only [hrec] at h
          cases ot <;> simp at h

theorem lex_all_error {cs : List Char} {e : String} (h : lex_all cs = .error e) :
    e ∈ lex_error_msgs := by
  rcases lex_tokens_error cs.length cs e h with hm | ⟨-, hlen⟩
  · exact hm
  · omega

/-! Token-grammar support lemmas. -/

theorem toks_ne_nil : ∀ {k : TKind} {ts : List Token}, Toks k ts → ts ≠ [] := by
  intro k ts h
  induction h <;> simp_all

theorem obj_rest_decomp : ∀ {b : Bool} {q : List Token}, ObjRest b q → objRestSpec b q := by
  intro b q h
  induction h with
  | close first => exact .inl rfl
  | pairFirst k hv hr ih =>
    rcases ih with rfl | ⟨ms, hms, hq⟩
    · exact .inr ⟨_, Toks.memberOne k hv, by simp⟩
    · simp only [if_neg Bool.false_ne_true] at hq
      subst hq
      refine .inr ⟨_, Toks.memberCons k hv hms, ?_⟩
      simp
  | pairNext k hv hr ih =>
    rcases ih with rfl | ⟨ms, hms, hq⟩
    · exact .inr ⟨_, Toks.memberOne k hv, by simp⟩
    · simp only [if_neg Bool.false_ne_true] at hq
      subst hq
      refine .inr ⟨_, Toks.memberCons k hv hms, ?_⟩
      simp

theorem obj_rest_toks {q : List Token} (h : ObjRest true q) :
    Toks .obj (.leftBrace :: q) := by
  rcases obj_rest_decomp h with rfl | ⟨ms, hms, hq⟩
  · exact Toks.objEmpty
  · simp only [if_pos rfl] at hq
    subst hq
    exact Toks.objMembers hms

theorem arr_rest_decomp : ∀ {b : Bool} {q : List Token}, ArrRest b q → arrRestSpec b q := by
  intro b q h
  induction h with
  | close first => exact .inl rfl
  | elemFirst hv hr ih =>
    rcases ih with rfl | ⟨es, hes, hq⟩
    · exact .inr ⟨_, Toks.elemOne hv, by simp⟩
    · simp only [if_neg Bool.false_ne_true] at hq
      subst hq
      refine .inr ⟨_, Toks.elemCons hv hes, ?_⟩
      simp
  | elemNext hv hr ih =>
    rcases ih with rfl | ⟨es, hes, hq⟩
    · exact .inr ⟨_, Toks.elemOne hv, by simp⟩
    · simp only [if_neg Bool.false_ne_true] at hq
      subst hq
      refine .inr ⟨_, Toks.elemCons hv hes, ?_⟩
      simp

theorem arr_rest_toks {q : List Token} (h : ArrRest true q) :
    Toks .arr (.leftBracket :: q) := by
  rcases arr_rest_decomp h with rfl | ⟨es, hes, hq⟩
  · exact Toks.arrEmpty
  · simp only [if_pos rfl] at hq
    subst hq
    exact Toks.arrElems hes

/-- Master soundness, error-classification and fuel-sufficiency lemma
for the recursive-descent parser, proved by induction on fuel.  For
each parser function: a successful run consumed a prefix generated by
the token grammar, and a failing run produced one of the section 7
diagnostics unless the fuel was below the stated linear bound (so the
fuel sentinel is unreachable at the canonical fuel). -/
theorem parser_master : ∀ fuel : Nat,
    (∀ ts r, parse_value fuel ts = .ok r →
      ∃ p, ts = p ++ r ∧ Toks .value p) ∧
    (∀ ts e, parse_value fuel ts = .error e →
      e ∈ inner_parse_msgs ∨ (e = "parser out of fuel" ∧ fuel < 4 * ts.length + 2)) ∧
    (∀ ts r, parse_object fuel ts = .ok r →
      ∃ p, ts = p ++ r ∧ Toks .obj p) ∧
    (∀ ts e, parse_object fuel ts = .error e →
      e ∈ inner_parse_msgs ∨ (e = "Expected '\x7b'" ∧ ts.head? ≠ some .leftBrace) ∨
        (e = "parser out of fuel" ∧ fuel < 4 * ts.length + 1)) ∧
    (∀ ts r, parse_array fuel ts = .ok r →
      ∃ p, ts = p ++ r ∧ Toks .arr p) ∧
    (∀ ts e, parse_array fuel ts = .error e →
      e ∈ inner_parse_msgs ∨ (e = "Expected '['" ∧ ts.head? ≠ some .leftBracket) ∨
        (e = "parser out of fuel" ∧ fuel < 4 * ts.length + 1)) ∧
    (∀ first ts r, object_loop fuel first ts = .ok r →
      ∃ p, ts = p ++ r ∧ ObjRest first p) ∧
    (∀ first ts e, object_loop fuel first ts = .error e →
      e ∈ inner_parse_msgs ∨ (e = "parser out of fuel" ∧ fuel < 4 * ts.length + 4)) ∧
    (∀ first ts r, array_loop fuel first ts = .ok r →
      ∃ p, ts = p ++ r ∧ ArrRest first p) ∧
    (∀ first ts e, array_loop fuel first ts = .error e →
      e ∈ inner_parse_msgs ∨ (e = "parser out of fuel" ∧ fuel < 4 * ts.length + 4)) ∧
    (∀ ts r, parse_pair fuel ts = .ok r →
      ∃ k v, ts = .string k :: .colon :: (v ++ r) ∧ Toks .value v) ∧
    (∀ ts e, parse_pair fuel ts = .error e →
      e ∈ inner_parse_msgs ∨ (e = "parser out of fuel" ∧ fuel < 4 * ts.length + 3)) := by
  intro fuel
  induction fuel with
  | zero =>
    refine ⟨?_, ?_, ?_, ?_, ?_, ?_, ?_, ?_, ?_, ?_, ?_, ?_⟩
    · intro ts r h; simp [parse_value] at h
    · intro ts e h
      simp only [parse_value, Except.error.injEq] at h
      exact .inr ⟨h.symm, by omega⟩
    · intro ts r h; simp [parse_object] at h
    · intro ts e h
      simp only [parse_object, Except.error.injEq] at h
      exact .inr (.inr ⟨h.symm, by omega⟩)
    · intro ts r h; simp [parse_array] at h
    · intro ts e h
      simp only [parse_array, Except.error.injEq] at h
      exact .inr (.inr ⟨h.symm, by omega⟩)
    · intro first ts r h
      cases ts with
      | nil => simp [object_loop] at h
      | cons t rest => simp [object_loop] at h
    · intro first ts e h
      cases ts with
      | nil =>
        simp only [object_loop, Except.error.injEq] at h
        subst h
        exact .inl (by simp [inner_parse_msgs])
      | cons t rest =>
        simp only [object_loop, Except.error.injEq] at h
        exact .inr ⟨h.symm, by omega⟩
    · intro first ts r h
      cases ts with
      | nil => simp [array_loop] at h
      | cons t rest => simp [array_loop] at h
    · intro first ts e h
      cases ts with
      | nil =>
        simp only [array_loop, Except.error.injEq] at h
        subst h
        exact .inl (by simp [inner_parse_msgs])
      | cons t rest =>
        simp only [array_loop, Except.error.injEq] at h
        exact .inr ⟨h.symm, by omega⟩
    · intro ts r h; simp [parse_pair] at h
    · intro ts e h
      simp only [parse_pair, Except.error.injEq] at h
      exact .inr ⟨h.symm, by omega⟩
  | succ f ih =>
    obtain ⟨vOk, vErr, oOk, oErr, aOk, aErr, olOk, olErr, alOk, alErr, pOk, pErr⟩ := ih
    refine ⟨?_, ?_, ?_, ?_, ?_, ?_, ?_, ?_, ?_, ?_, ?_, ?_⟩
    -- parse_value, ok
    · intro ts r h
      simp only [parse_value] at h
      split at h
      · obtain ⟨p, hp, ht⟩ := oOk _ _ h
        exact ⟨p, hp, Toks.objV ht⟩
      · obtain ⟨p, hp, ht⟩ := aOk _ _ h
        exact ⟨p, hp, Toks.arrV ht⟩
      · rename_i s rest
        simp only [Except.ok.injEq] at h
        subst h
        exact ⟨[Token.string s], rfl, Toks.str s⟩
      · rename_i s rest
        simp only [Except.ok.injEq] at h
        subst h
        exact ⟨[Token.number s], rfl, Toks.num s⟩
      · rename_i b rest
        simp only [Except.ok.injEq] at h
        subst h
        exact ⟨[Token.boolean b], rfl, Toks.boolean b⟩
      · rename_i rest
        simp only [Except.ok.injEq] at h
        subst h
        exact ⟨[Token.null], rfl, Toks.null⟩
      · cases h
    -- parse_value, error
    · intro ts e h
      simp only [parse_value] at h
      split at h
      · rcases oErr _ _ h with hm | ⟨he, hh⟩ | ⟨he, hb⟩
        · exact .inl hm
        · simp at hh
        · refine .inr ⟨he, ?_⟩
          simp only [List.length_cons] at *
          omega
      · rcases aErr _ _ h with hm | ⟨he, hh⟩ | ⟨he, hb⟩
        · exact .inl hm
        · simp at hh
        · refine .inr ⟨he, ?_⟩
          simp only [List.length_cons] at *
          omega
      · simp at h
      · simp at h
      · simp at h
      · simp at h
      · simp only [Except.error.injEq] at h
        subst h
        exact .inl (by simp [inner_parse_msgs])
    -- parse_object, ok
    · intro ts r h
      simp only [parse_object] at h
      split at h
      · rename_i rest
        obtain ⟨p, hp, hr⟩ := olOk _ _ _ h
        subst hp
        exact ⟨.leftBrace :: p, by simp, obj_rest_toks hr⟩
      · cases h
    -- parse_object, error
    · intro ts e h
      simp only [parse_object] at h
      split at h
      · rcases olErr _ _ _ h with hm | ⟨he, hb⟩
        · exact .inl hm
        · refine .inr (.inr ⟨he, ?_⟩)
          simp only [List.length_cons] at *
          omega
      · rename_i hpat
        simp only [Except.error.injEq] at h
        subst h
        refine .inr (.inl ⟨rfl, ?_⟩)
        intro hh
        cases ts with
        | nil => simp at hh
        | cons t ts' =>
          simp only [List.head?_cons, Option.some.injEq] at hh
          subst hh
          exact hpat ts' rfl
    -- parse_array, ok
    · intro ts r h
      simp only [parse_array] at h
      split at h
      · rename_i rest
        obtain ⟨p, hp, hr⟩ := alOk _ _ _ h
        subst hp
        exact ⟨.leftBracket :: p, by simp, arr_rest_toks hr⟩
      · cases h
    -- parse_array, error
    · intro ts e h
      simp only [parse_array] at h
      split at h
      · rcases alErr _ _ _ h with hm | ⟨he, hb⟩
        · exact .inl hm
        · refine .inr (.inr ⟨he, ?_⟩)
          simp only [List.length_cons] at *
          omega
      · rename_i hpat
        simp only [Except.error.injEq] at h
        subst h
        refine .inr (.inl ⟨rfl, ?_⟩)
        intro hh
        cases ts with
        | nil => simp at hh
        | cons t ts' =>
          simp only [List.head?_cons, Option.some.injEq] at hh
          subst hh
          exact hpat ts' rfl
    -- object_loop, ok
    · intro first ts r h
      cases ts with
      | nil => simp [object_loop] at h
      | cons t rest =>
        simp only [object_loop] at h
        by_cases h1 : t = .rightBrace
        · rw [if_pos h1] at h
          simp only [Except.ok.injEq] at h
          subst h h1
          exact ⟨[.rightBrace], rfl, ObjRest.close first⟩
        · rw [if_neg h1] at h
          cases first with
          | true =>
            rw [if_pos rfl] at h
            split at h
            · rename_i r1 heq
              obtain ⟨k, v, hp, hv⟩ := pOk _ _ heq
              obtain ⟨p2, hp2, hr2⟩ := olOk _ _ _ h
              subst hp2
              refine ⟨.string k :: .colon :: (v ++ p2), ?_, ObjRest.pairFirst k hv hr2⟩
              rw [hp]
              simp
            · cases h
          | false =>
            rw [if_neg (by simp)] at h
            by_cases h2 : t = .comma
            · rw [if_pos h2] at h
              split at h
              · cases h
              · split at h
                · rename_i r1 heq
                  obtain ⟨k, v, hp, hv⟩ := pOk _ _ heq
                  obtain ⟨p2, hp2, hr2⟩ := olOk _ _ _ h
                  subst hp2 h2
                  refine ⟨.comma :: (.string k :: .colon :: (v ++ p2)), ?_,
                    ObjRest.pairNext k hv hr2⟩
                  rw [hp]
                  simp
                · cases h
            · rw [if_neg h2] at h
              cases h
    -- object_loop, error
    · intro first ts e h
      cases ts with
      | nil =>
        simp only [object_loop, Except.error.injEq] at h
        subst h
        exact .inl (by simp [inner_parse_msgs])
      | cons t rest =>
        simp only [object_loop] at h
        by_cases h1 : t = .rightBrace
        · rw [if_pos h1] at h
          cases h
        · rw [if_neg h1] at h
          cases first with
          | true =>
            rw [if_pos rfl] at h
            split at h
            · rename_i r1 heq
              obtain ⟨k, v, hp, hv⟩ := pOk _ _ heq
              rcases olErr _ _ _ h with hm | ⟨he, hb⟩
              · exact .inl hm
              · refine .inr ⟨he, ?_⟩
                have hlv := toks_ne_nil hv
                have : (t :: rest).length = 2 + v.length + r1.length := by
                  rw [hp]; simp only [List.length_cons, List.length_append]; omega
                have hv1 : 1 ≤ v.length := by
                  cases v with
                  | nil => simp at hlv
                  | cons a b => simp
                simp only [List.length_cons] at *
                omega
            · rename_i e1 heq
              rcases pErr _ _ heq with hm | ⟨he, hb⟩
              · simp only [Except.error.injEq] at h
                subst h
                exact .inl hm
              · simp only [Except.error.injEq] at h
                subst h
                refine .inr ⟨he, ?_⟩
                simp only [List.length_cons] at *
                omega
          | false =>
            rw [if_neg (by simp)] at h
            by_cases h2 : t = .comma
            · rw [if_pos h2] at h
              split at h
              · simp only [Except.error.injEq] at h
                subst h
                exact .inl (by simp [inner_parse_msgs])
              · split at h
                · rename_i r1 heq
                  obtain ⟨k, v, hp, hv⟩ := pOk _ _ heq
                  rcases olErr _ _ _ h with hm | ⟨he, hb⟩
                  · exact .inl hm
                  · refine .inr ⟨he, ?_⟩
                    have hlv := toks_ne_nil hv
                    have : rest.length = 2 + v.length + r1.length := by
                      rw [hp]; simp only [List.length_cons, List.length_append]; omega
                    have hv1 : 1 ≤ v.length := by
                      cases v with
                      | nil => simp at hlv
                      | cons a b => simp
                    simp only [List.length_cons] at *
                    omega
                · rename_i e1 heq
                  rcases pErr _ _ heq with hm | ⟨he, hb⟩
                  · simp only [Except.error.injEq] at h
                    subst h
                    exact .inl hm
                  · simp only [Except.error.injEq] at h
                    subst h
                    refine .inr ⟨he, ?_⟩
                    simp only [List.length_cons] at *
                    omega
            · rw [if_neg h2] at h
              simp only [Except.error.injEq] at h
              subst h
              exact .inl (by simp [inner_parse_msgs])
    -- array_loop, ok
    · intro first ts r h
      cases ts with
      | nil => simp [array_loop] at h
      | cons t rest =>
        simp only [array_loop] at h
        by_cases h1 : t = .rightBracket
        · rw [if_pos h1] at h
          simp only [Except.ok.injEq] at h
          subst h h1
          exact ⟨[.rightBracket], rfl, ArrRest.close first⟩
        · rw [if_neg h1] at h
          cases first with
          | true =>
            rw [if_pos rfl] at h
            split at h
            · rename_i r1 heq
              obtain ⟨p1, hp, hv⟩ := vOk _ _ heq
              obtain ⟨p2, hp2, hr2⟩ := alOk _ _ _ h
              subst hp2
              refine ⟨p1 ++ p2, ?_, ArrRest.elemFirst hv hr2⟩
              rw [hp]
              simp
            · cases h
          | false =>
            rw [if_neg (by simp)] at h
            by_cases h2 : t = .comma
            · rw [if_pos h2] at h
              split at h
              · cases h
              · split at h
                · rename_i r1 heq
                  obtain ⟨p1, hp, hv⟩ := vOk _ _ heq
                  obtain ⟨p2, hp2, hr2⟩ := alOk _ _ _ h
                  subst hp2 h2
                  refine ⟨.comma :: (p1 ++ p2), ?_, ArrRest.elemNext hv hr2⟩
                  rw [hp]
                  simp
                · cases h
            · rw [if_neg h2] at h
              cases h
    -- array_loop, error
    · intro first ts e h
      cases ts with
      | nil =>
        simp only [array_loop, Except.error.injEq] at h
        subst h
        exact .inl (by simp [inner_parse_msgs])
      | cons t rest =>
        simp only [array_loop] at h
        by_cases h1 : t = .rightBracket
        · rw [if_pos h1] at h
          cases h
        · rw [if_neg h1] at h
          cases first with
          | true =>
            rw [if_pos rfl] at h
            split at h
            · rename_i r1 heq
              obtain ⟨p1, hp, hv⟩ := vOk _ _ heq
              rcases alErr _ _ _ h with hm | ⟨he, hb⟩
              · exact .inl hm
              · refine .inr ⟨he, ?_⟩
                have hlv := toks_ne_nil hv
                have : (t :: rest).length = p1.length + r1.length := by
                  rw [hp]; simp only [List.length_append]
                have hv1 : 1 ≤ p1.length := by
                  cases p1 with
                  | nil => simp at hlv
                  | cons a b => simp
                simp only [List.length_cons] at *
                omega
            · rename_i e1 heq
              rcases vErr _ _ heq with hm | ⟨he, hb⟩
              · simp only [Except.error.injEq] at h
                subst h
                exact .inl hm
              · simp only [Except.error.injEq] at h
                subst h
                refine .inr ⟨he, ?_⟩
                simp only [List.length_cons] at *
                omega
          | false =>
            rw [if_neg (by simp)] at h
            by_cases h2 : t = .comma
            · rw [if_pos h2] at h
              split at h
              · simp only [Except.error.injEq] at h
                subst h
                exact .inl (by simp [inner_parse_msgs])
              · split at h
                · rename_i r1 heq
                  obtain ⟨p1, hp, hv⟩ := vOk _ _ heq
                  rcases alErr _ _ _ h with hm | ⟨he, hb⟩
                  · exact .inl hm
                  · refine .inr ⟨he, ?_⟩
                    have hlv := toks_ne_nil hv
                    have : rest.length = p1.length + r1.length := by
                      rw [hp]; simp only [List.length_append]
                    have hv1 : 1 ≤ p1.length := by
                      cases p1 with
                      | nil => simp at hlv
                      | cons a b => simp
                    simp only [List.length_cons] at *
                    omega
                · rename_i e1 heq
                  rcases vErr _ _ heq with hm | ⟨he, hb⟩
                  · simp only [Except.error.injEq] at h
                    subst h
                    exact .inl hm
                  · simp only [Except.error.injEq] at h
                    subst h
                    refine .inr ⟨he, ?_⟩
                    simp only [List.length_cons] at *
                    omega
            · rw [if_neg h2] at h
              simp only [Except.error.injEq] at h
              subst h
              exact .inl (by simp [inner_parse_msgs])
    -- parse_pair, ok
    · intro ts r h
      match ts with
      | [] => simp [parse_pair] at h
      | .string k :: rest =>
        simp only [parse_pair] at h
        split at h
        · rename_i rest2
          obtain ⟨v, hp, hv⟩ := vOk _ _ h
          exact ⟨k, v, by rw [hp], hv⟩
        · cases h
      | .leftBrace :: rest => simp [parse_pair] at h
      | .rightBrace :: rest => simp [parse_pair] at h
      | .leftBracket :: rest => simp [parse_pair] at h
      | .rightBracket :: rest => simp [parse_pair] at h
      | .number s :: rest => simp [parse_pair] at h
      | .boolean b :: rest => simp [parse_pair] at h
      | .null :: rest => simp [parse_pair] at h
      | .colon :: rest => simp [parse_pair] at h
      | .comma :: rest => simp [parse_pair] at h
    -- parse_pair, error
    · intro ts e h
      match ts with
      | [] =>
        simp only [parse_pair, Except.error.injEq] at h
        subst h
        exact .inl (by simp [inner_parse_msgs])
      | .string k :: rest =>
        simp only [parse_pair] at h
        split at h
        · rename_i rest2
          rcases vErr _ _ h with hm | ⟨he, hb⟩
          · exact .inl hm
          · refine .inr ⟨he, ?_⟩
            simp only [List.length_cons] at *
            omega
        · simp only [Except.error.injEq] at h
          subst h
          exact .inl (by simp [inner_parse_msgs])
      | .leftBrace :: rest =>
        simp only [parse_pair, Except.error.injEq] at h
        subst h
        exact .inl (by simp [inner_parse_msgs])
      | .rightBrace :: rest =>
        simp only [parse_pair, Except.error.injEq] at h
        subst h
        exact .inl (by simp [inner_parse_msgs])
      | .leftBracket :: rest =>
        simp only [parse_pair, Except.error.injEq] at h
        subst h
        exact .inl (by simp [inner_parse_msgs])
      | .rightBracket :: rest =>
        simp only [parse_pair, Except.error.injEq] at h
        subst h
        exact .inl (by simp [inner_parse_msgs])
      | .number s :: rest =>
        simp only [parse_pair, Except.error.injEq] at h
        subst h
        exact .inl (by simp [inner_parse_msgs])
      | .boolean b :: rest =>
        simp only [parse_pair, Except.error.injEq] at h
        subst h
        exact .inl (by simp [inner_parse_msgs])
      | .null :: rest =>
        simp only [parse_pair, Except.error.injEq] at h
        subst h
        exact .inl (by simp [inner_parse_msgs])
      | .colon :: rest =>
        simp only [parse_pair, Except.error.injEq] at h
        subst h
        exact .inl (by simp [inner_parse_msgs])
      | .comma :: rest =>
        simp only [parse_pair, Except.error.injEq] at h
        subst h
        exact .inl (by simp [inner_parse_msgs])

/-! Facts about the strict JSON number grammar and the f64 parse. -/

theorem strip_sign_cons {c : Char} (cs : List Char) (h1 : c ≠ '+') (h2 : c ≠ '-') :
    strip_sign (c :: cs) = c :: cs := by
  unfold strip_sign
  split
  · rename_i heq
    injection heq with h3 h4
    exact absurd h3 h1
  · rename_i heq
    injection heq with h3 h4
    exact absurd h3 h2
  · rfl

theorem digit_not_sign {c : Char} (h : c.isDigit = true) : c ≠ '+' ∧ c ≠ '-' := by
  rw [char_isDigit_iff] at h
  have l1 : ('+').toNat = 43 := rfl
  have l2 : ('-').toNat = 45 := rfl
  constructor
  · intro he
    rw [char_eq_iff_toNat, l1] at he
    omega
  · intro he
    rw [char_eq_iff_toNat, l2] at he
    omega

theorem read_while_all_nil {p : Char → Bool} {xs : List Char}
    (h : ∀ c ∈ xs, p c = true) : read_while p xs = (xs, []) := by
  have := @read_while_all p xs [] h (by intro c hc; simp at hc)
  simpa using this

theorem exp_valid_json {ex : List Char}
    (hex : ex = [] ∨ ∃ e s ds, (e = 'e' ∨ e = 'E') ∧ (s = [] ∨ s = ['+'] ∨ s = ['-']) ∧
      Digits ds ∧ ex = e :: (s ++ ds)) : exp_valid ex = true := by
  rcases hex with rfl | ⟨e, s, ds, he, hs, ⟨hds_ne, hds⟩, rfl⟩
  · rfl
  · obtain ⟨d, ds', rfl⟩ : ∃ d ds', ds = d :: ds' := by
      cases ds with
      | nil => simp at hds_ne
      | cons d ds' => exact ⟨d, ds', rfl⟩
    have hdd : d.isDigit = true := hds d (by simp)
    have hstrip : strip_sign (s ++ d :: ds') = d :: ds' := by
      rcases hs with rfl | rfl | rfl
      · simp only [List.nil_append]
        exact strip_sign_cons ds' (digit_not_sign hdd).1 (digit_not_sign hdd).2
      · rfl
      · rfl
    have hrw : read_while Char.isDigit (d :: ds') = (d :: ds', []) :=
      read_while_all_nil hds
    rcases he with rfl | rfl <;>
      simp [exp_valid, hstrip, hrw]

theorem json_num_props {cs : List Char} (h : JsonNum cs) :
    f64_syntax_valid cs = true ∧ (∀ c ∈ cs, is_number_char c = true) ∧
    (∃ c r, cs = c :: r ∧ (c.isDigit || c == '-') = true) := by
  obtain ⟨sign, int, frac, ex, hsign, hint, hfrac, hex, rfl⟩ := h
  have hint_ne : int ≠ [] := by
    rcases hint with rfl | ⟨⟨hne, -⟩, -⟩
    · simp
    · exact hne
  have hint_digits : ∀ c ∈ int, c.isDigit = true := by
    rcases hint with rfl | ⟨⟨-, hd⟩, -⟩
    · intro c hc
      simp at hc
      subst hc
      decide
    · exact hd
  obtain ⟨d0, int', rfl⟩ : ∃ d0 int', int = d0 :: int' := by
    cases int with
    | nil => simp at hint_ne
    | cons d0 int' => exact ⟨d0, int', rfl⟩
  have hd0 : d0.isDigit = true := hint_digits d0 (by simp)
  -- the head of frac ++ ex is never a digit
  have hfe_head : ∀ c, (frac ++ ex).head? = some c → c.isDigit = false := by
    intro c hc
    rcases hfrac with rfl | ⟨ds, hds, rfl⟩
    · simp only [List.nil_append] at hc
      rcases hex with rfl | ⟨e, s, ds2, he, hs, hds2, rfl⟩
      · simp at hc
      · simp only [List.head?_cons, Option.some.injEq] at hc
        subst hc
        rcases he with rfl | rfl <;> decide
    · simp only [List.cons_append, List.head?_cons, Option.some.injEq] at hc
      subst hc
      decide
  -- the span of digits from the body is exactly the integer part
  have hbody : strip_sign (sign ++ (d0 :: int') ++ frac ++ ex) =
      (d0 :: int') ++ (frac ++ ex) := by
    rcases hsign with rfl | rfl
    · simp only [List.nil_append, List.append_assoc]
      exact strip_sign_cons _ (digit_not_sign hd0).1 (digit_not_sign hd0).2
    · simp only [List.cons_append, List.append_assoc, List.singleton_append]
      rfl
  have hip : read_while Char.isDigit ((d0 :: int') ++ (frac ++ ex)) =
      (d0 :: int', frac ++ ex) :=
    read_while_all hint_digits hfe_head
  refine ⟨?_, ?_, ?_⟩
  · -- f64_syntax_valid
    simp only [f64_syntax_valid, hbody, hip]
    rcases hfrac with rfl | ⟨ds, ⟨hds_ne, hds⟩, rfl⟩
    · simp only [List.nil_append]
      rcases hex with rfl | ⟨e, s, ds2, he, hs, hds2, hexeq⟩
      · simp [exp_valid]
      · subst hexeq
        rcases he with rfl | rfl <;>
          simp [exp_valid_json (.inr ⟨_, s, ds2, .inl rfl, hs, hds2, rfl⟩),
            exp_valid_json (.inr ⟨_, s, ds2, .inr rfl, hs, hds2, rfl⟩)]
    · simp only [List.cons_append]
      have hfp : read_while Char.isDigit (ds ++ ex) = (ds, ex) := by
        apply read_while_all hds
        intro c hc
        rcases hex with rfl | ⟨e, s, ds2, he, hs, hds2, rfl⟩
        · simp at hc
        · simp only [List.head?_cons, Option.some.injEq] at hc
          subst hc
          rcases he with rfl | rfl <;> decide
      simp only [hfp]
      have : ds ≠ [] := hds_ne
      simp [exp_valid_json hex, List.isEmpty_eq_true, this]
  · -- every character is in the number alphabet
    intro c hc
    simp only [List.append_assoc, List.mem_append, List.mem_cons] at hc
    rcases hc with hc | hc | hc | hc
    · rcases hsign with rfl | rfl
      · simp at hc
      · simp at hc
        subst hc
        decide
    · have : c.isDigit = true := by
        rcases hc with rfl | hc
        · exact hd0
        · exact hint_digits c (by simp [hc])
      simp [is_number_char, this]
    · rcases hfrac with rfl | ⟨ds, ⟨-, hds⟩, rfl⟩
      · simp at hc
      · simp only [List.mem_cons] at hc
        rcases hc with rfl | hc
        · decide
        · simp [is_number_char, hds c hc]
    · rcases hex with rfl | ⟨e, s, ds2, he, hs, ⟨-, hds2⟩, rfl⟩
      · simp at hc
      · simp only [List.mem_cons, List.mem_append] at hc
        rcases hc with rfl | hc | hc
        · rcases he with rfl | rfl <;> decide
        · rcases hs with rfl | rfl | rfl
          · simp at hc
          · simp at hc; subst hc; decide
          · simp at hc; subst hc; decide
        · simp [is_number_char, hds2 c hc]
  · -- the run begins with a digit or a minus sign
    rcases hsign with rfl | rfl
    · exact ⟨d0, int' ++ frac ++ ex, by simp, by simp [hd0]⟩
    · exact ⟨'-', (d0 :: int') ++ frac ++ ex, by simp, by decide⟩

/-! Chunk lemmas: how `lex_all` consumes one well-formed token text. -/

theorem follows_ws_append {w : List Char} {X : List Char} (hw : Ws w) (hx : Follows X) :
    Follows (w ++ X) := by
  cases w with
  | nil => simpa using hx
  | cons c w' =>
    simp only [List.cons_append, Follows]
    exact .inr (.inr (.inr (hw c (by simp))))

theorem follows_not_num_alpha {c : Char} {X : List Char} (h : Follows (c :: X)) :
    is_number_char c = false ∧ c.isAlpha = false := by
  rcases h with rfl | rfl | rfl | hws
  · exact ⟨by decide, by decide⟩
  · exact ⟨by decide, by decide⟩
  · exact ⟨by decide, by decide⟩
  · obtain ⟨-, -, -, -, -, -, -, -, h9, -, h11⟩ := ws_facts hws
    exact ⟨h11, h9⟩

theorem lex_all_ws {w : List Char} (hw : Ws w) (X : List Char) :
    lex_all (w ++ X) = lex_all X := by
  induction w with
  | nil => simp
  | cons c w' ih =>
    have hc : json_ws c = true := hw c (by simp)
    have ih2 := ih (fun c hc2 => hw c (by simp [hc2]))
    rw [List.cons_append, lex_all_cons_ok (lex_step_ws (w' ++ X) hc), ih2]
    cases lex_all X <;> rfl

theorem lex_all_lbrace (X : List Char) :
    lex_all ('{' :: X) = (lex_all X).map (Token.leftBrace :: ·) := by
  rw [lex_all_cons_ok (lex_step_lbrace X)]
  cases lex_all X <;> rfl

theorem lex_all_rbrace (X : List Char) :
    lex_all ('}' :: X) = (lex_all X).map (Token.rightBrace :: ·) := by
  rw [lex_all_cons_ok (lex_step_rbrace X)]
  cases lex_all X <;> rfl

theorem lex_all_lbracket (X : List Char) :
    lex_all ('[' :: X) = (lex_all X).map (Token.leftBracket :: ·) := by
  rw [lex_all_cons_ok (lex_step_lbracket X)]
  cases lex_all X <;> rfl

theorem lex_all_rbracket (X : List Char) :
    lex_all (']' :: X) = (lex_all X).map (Token.rightBracket :: ·) := by
  rw [lex_all_cons_ok (lex_step_rbracket X)]
  cases lex_all X <;> rfl

theorem lex_all_colon (X : List Char) :
    lex_all (':' :: X) = (lex_all X).map (Token.colon :: ·) := by
  rw [lex_all_cons_ok (lex_step_colon X)]
  cases lex_all X <;> rfl

theorem lex_all_comma (X : List Char) :
    lex_all (',' :: X) = (lex_all X).map (Token.comma :: ·) := by
  rw [lex_all_cons_ok (lex_step_comma X)]
  cases lex_all X <;> rfl

theorem lex_all_string {k : List Char} (hk : StrChars k) (X : List Char) :
    lex_all ('"' :: (k ++ '"' :: X)) = (lex_all X).map (Token.string ⟨k⟩ :: ·) := by
  have hstep : lex_step ('"' :: (k ++ '"' :: X)) = .ok (some (.string ⟨k⟩), X) := by
    rw [lex_step_quote, lex_string_complete X hk]
  rw [lex_all_cons_ok hstep]
  cases lex_all X <;> rfl

theorem lex_all_number {cs : List Char} (h : JsonNum cs) (X : List Char) (hX : Follows X) :
    lex_all (cs ++ X) = (lex_all X).map (Token.number ⟨cs⟩ :: ·) := by
  obtain ⟨hvalid, hchars, c0, r0, rfl, hstart⟩ := json_num_props h
  have hXhead : ∀ c, X.head? = some c → is_number_char c = false := by
    intro c hc
    cases X with
    | nil => simp at hc
    | cons x X' =>
      simp only [List.head?_cons, Option.some.injEq] at hc
      subst hc
      exact (follows_not_num_alpha hX).1
  have hrw : read_while is_number_char ((c0 :: r0) ++ X) = (c0 :: r0, X) :=
    read_while_all hchars hXhead
  have hnum : lex_number ((c0 :: r0) ++ X) = .ok (⟨c0 :: r0⟩, X) := by
    simp only [lex_number, hrw, hvalid, if_pos]
  have hstep : lex_step (c0 :: (r0 ++ X)) = .ok (some (.number ⟨c0 :: r0⟩), X) := by
    rw [lex_step_num (r0 ++ X) hstart]
    simp only [← List.cons_append, hnum]
  rw [List.cons_append, lex_all_cons_ok hstep]
  cases lex_all X <;> rfl

theorem lex_all_true (X : List Char) (hX : Follows X) :
    lex_all ('t' :: 'r' :: 'u' :: 'e' :: X) = (lex_all X).map (Token.boolean true :: ·) := by
  have hXhead : ∀ c, X.head? = some c → Char.isAlpha c = false := by
    intro c hc
    cases X with
    | nil => simp at hc
    | cons x X' =>
      simp only [List.head?_cons, Option.some.injEq] at hc
      subst hc
      exact (follows_not_num_alpha hX).2
  have hrw : read_while Char.isAlpha (['t', 'r', 'u', 'e'] ++ X) = (['t', 'r', 'u', 'e'], X) :=
    read_while_all (by decide) hXhead
  have hid : lex_identifier (['t', 'r', 'u', 'e'] ++ X) = .ok (.boolean true, X) := by
    simp only [lex_identifier, hrw]
  have hstep : lex_step ('t' :: ('r' :: 'u' :: 'e' :: X)) = .ok (some (.boolean true), X) := by
    rw [lex_step_alpha _ (by decide)]
    have : 't' :: 'r' :: 'u' :: 'e' :: X = ['t', 'r', 'u', 'e'] ++ X := by simp
    rw [this, hid]
  rw [lex_all_cons_ok hstep]
  cases lex_all X <;> rfl

theorem lex_all_false (X : List Char) (hX : Follows X) :
    lex_all ('f' :: 'a' :: 'l' :: 's' :: 'e' :: X) =
      (lex_all X).map (Token.boolean false :: ·) := by
  have hXhead : ∀ c, X.head? = some c → Char.isAlpha c = false := by
    intro c hc
    cases X with
    | nil => simp at hc
    | cons x X' =>
      simp only [List.head?_cons, Option.some.injEq] at hc
      subst hc
      exact (follows_not_num_alpha hX).2
  have hrw : read_while Char.isAlpha (['f', 'a', 'l', 's', 'e'] ++ X) =
      (['f', 'a', 'l', 's', 'e'], X) :=
    read_while_all (by decide) hXhead
  have hid : lex_identifier (['f', 'a', 'l', 's', 'e'] ++ X) = .ok (.boolean false, X) := by
    simp only [lex_identifier, hrw]
  have hstep : lex_step ('f' :: ('a' :: 'l' :: 's' :: 'e' :: X)) =
      .ok (some (.boolean false), X) := by
    rw [lex_step_alpha _ (by decide)]
    have : 'f' :: 'a' :: 'l' :: 's' :: 'e' :: X = ['f', 'a', 'l', 's', 'e'] ++ X := by simp
    rw [this, hid]
  rw [lex_all_cons_ok hstep]
  cases lex_all X <;> rfl

theorem lex_all_null (X : List Char) (hX : Follows X) :
    lex_all ('n' :: 'u' :: 'l' :: 'l' :: X) = (lex_all X).map (Token.null :: ·) := by
  have hXhead : ∀ c, X.head? = some c → Char.isAlpha c = false := by
    intro c hc
    cases X with
    | nil => simp at hc
    | cons x X' =>
      simp only [List.head?_cons, Option.some.injEq] at hc
      subst hc
      exact (follows_not_num_alpha hX).2
  have hrw : read_while Char.isAlpha (['n', 'u', 'l', 'l'] ++ X) = (['n', 'u', 'l', 'l'], X) :=
    read_while_all (by decide) hXhead
  have hid : lex_identifier (['n', 'u', 'l', 'l'] ++ X) = .ok (.null, X) := by
    simp only [lex_identifier, hrw]
  have hstep : lex_step ('n' :: ('u' :: 'l' :: 'l' :: X)) = .ok (some .null, X) := by
    rw [lex_step_alpha _ (by decide)]
    have : 'n' :: 'u' :: 'l' :: 'l' :: X = ['n', 'u', 'l', 'l'] ++ X := by simp
    rw [this, hid]
  rw [lex_all_cons_ok hstep]
  cases lex_all X <;> rfl

/-- Lexer completeness over well-formed token text: lexing a
well-formed production followed by admissible trailing text prepends
exactly the production's tokens. -/
theorem lex_all_wf : ∀ {k : WKind} {cs : List Char} {ts : List Token},
    WfTT k cs ts → ∀ rest : List Char, Follows rest →
    lex_all (cs ++ rest) = (lex_all rest).map (ts ++ ·) := by
  intro k cs ts h
  induction h with
  | str hs =>
    intro rest hrest
    simp only [List.cons_append, List.append_assoc, List.singleton_append, List.nil_append]
    rw [lex_all_string hs]
  | num hn =>
    intro rest hrest
    rw [lex_all_number hn rest hrest]
    cases lex_all rest <;> rfl
  | lit_true =>
    intro rest hrest
    simp only [List.cons_append, List.nil_append]
    rw [lex_all_true rest hrest]
  | lit_false =>
    intro rest hrest
    simp only [List.cons_append, List.nil_append]
    rw [lex_all_false rest hrest]
  | lit_null =>
    intro rest hrest
    simp only [List.cons_append, List.nil_append]
    rw [lex_all_null rest hrest]
  | objV hobj ih => exact ih
  | arrV harr ih => exact ih
  | objEmpty hw =>
    intro rest hrest
    simp only [List.cons_append, List.append_assoc, List.singleton_append, List.nil_append]
    rw [lex_all_lbrace, lex_all_ws hw, lex_all_rbrace]
    cases lex_all rest <;> rfl
  | objMembers hm ih =>
    intro rest hrest
    simp only [List.cons_append, List.append_assoc, List.singleton_append, List.nil_append]
    rw [lex_all_lbrace, ih ('}' :: rest) (.inr (.inl rfl)), lex_all_rbrace]
    cases lex_all rest <;> rfl
  | arrEmpty hw =>
    intro rest hrest
    simp only [List.cons_append, List.append_assoc, List.singleton_append, List.nil_append]
    rw [lex_all_lbracket, lex_all_ws hw, lex_all_rbracket]
    cases lex_all rest <;> rfl
  | arrElems he ih =>
    intro rest hrest
    simp only [List.cons_append, List.append_assoc, List.singleton_append, List.nil_append]
    rw [lex_all_lbracket, ih (']' :: rest) (.inr (.inr (.inl rfl))), lex_all_rbracket]
    cases lex_all rest <;> rfl
  | memberOne h1 hk h2 h3 hv h4 ihv =>
    intro rest hrest
    simp only [List.cons_append, List.append_assoc, List.singleton_append, List.nil_append]
    rw [lex_all_ws h1, lex_all_string hk, lex_all_ws h2, lex_all_colon, lex_all_ws h3,
      ihv _ (follows_ws_append h4 hrest), lex_all_ws h4]
    cases lex_all rest <;> rfl
  | memberCons h1 hk h2 h3 hv h4 hm ihv ihm =>
    rename_i w1 k2 w2 w3 csv tsv w4 cs2 ts2
    intro rest hrest
    simp only [List.cons_append, List.append_assoc, List.singleton_append, List.nil_append]
    have hfol : Follows (',' :: (cs2 ++ rest)) := .inl rfl
    rw [lex_all_ws h1, lex_all_string hk, lex_all_ws h2, lex_all_colon, lex_all_ws h3,
      ihv _ (follows_ws_append h4 hfol), lex_all_ws h4, lex_all_comma, ihm rest hrest]
    cases lex_all rest <;> rfl
  | elemOne h1 hv h2 ihv =>
    intro rest hrest
    simp only [List.append_assoc, List.nil_append]
    rw [lex_all_ws h1, ihv _ (follows_ws_append h2 hrest), lex_all_ws h2]
  | elemCons h1 hv h2 he2 ihv ihe =>
    rename_i w1 csv tsv w2 cs2 ts2
    intro rest hrest
    simp only [List.append_assoc, List.cons_append, List.nil_append]
    have hfol : Follows (',' :: (cs2 ++ rest)) := .inl rfl
    rw [lex_all_ws h1, ihv _ (follows_ws_append h2 hfol), lex_all_ws h2, lex_all_comma,
      ihe rest hrest]
    cases lex_all rest <;> rfl

/-! Parser completeness over well-formed text. -/

theorem wf_obj_shape {cs : List Char} {ts : List Token} (h : WfTT .obj cs ts) :
    ∃ ts', ts = .leftBrace :: ts' := by
  cases h with
  | objEmpty hw => exact ⟨_, rfl⟩
  | objMembers hm => exact ⟨_, rfl⟩

theorem wf_arr_shape {cs : List Char} {ts : List Token} (h : WfTT .arr cs ts) :
    ∃ ts', ts = .leftBracket :: ts' := by
  cases h with
  | arrEmpty hw => exact ⟨_, rfl⟩
  | arrElems he => exact ⟨_, rfl⟩

theorem wf_value_head {cs : List Char} {ts : List Token} (h : WfTT .value cs ts) :
    ∃ t ts', ts = t :: ts' ∧ t ≠ .rightBrace ∧ t ≠ .rightBracket ∧ t ≠ .comma := by
  cases h with
  | str hs => exact ⟨_, _, rfl, by simp, by simp, by simp⟩
  | num hn => exact ⟨_, _, rfl, by simp, by simp, by simp⟩
  | lit_true => exact ⟨_, _, rfl, by simp, by simp, by simp⟩
  | lit_false => exact ⟨_, _, rfl, by simp, by simp, by simp⟩
  | lit_null => exact ⟨_, _, rfl, by simp, by simp, by simp⟩
  | objV hobj =>
    obtain ⟨ts', rfl⟩ := wf_obj_shape hobj
    exact ⟨_, _, rfl, by simp, by simp, by simp⟩
  | arrV harr =>
    obtain ⟨ts', rfl⟩ := wf_arr_shape harr
    exact ⟨_, _, rfl, by simp, by simp, by simp⟩

theorem parse_complete : ∀ {k : WKind} {cs : List Char} {ts : List Token},
    WfTT k cs ts → ParseCompleteSpec k ts := by
  intro k cs ts h
  induction h with
  | str hs =>
    intro tr fuel hf
    obtain ⟨f, rfl⟩ : ∃ f, fuel = f + 1 := ⟨fuel - 1, by omega⟩
    simp [parse_value]
  | num hn =>
    intro tr fuel hf
    obtain ⟨f, rfl⟩ : ∃ f, fuel = f + 1 := ⟨fuel - 1, by omega⟩
    simp [parse_value]
  | lit_true =>
    intro tr fuel hf
    obtain ⟨f, rfl⟩ : ∃ f, fuel = f + 1 := ⟨fuel - 1, by omega⟩
    simp [parse_value]
  | lit_false =>
    intro tr fuel hf
    obtain ⟨f, rfl⟩ : ∃ f, fuel = f + 1 := ⟨fuel - 1, by omega⟩
    simp [parse_value]
  | lit_null =>
    intro tr fuel hf
    obtain ⟨f, rfl⟩ : ∃ f, fuel = f + 1 := ⟨fuel - 1, by omega⟩
    simp [parse_value]
  | objV hobj ih =>
    intro tr fuel hf
    obtain ⟨f, rfl⟩ : ∃ f, fuel = f + 1 := ⟨fuel - 1, by omega⟩
    obtain ⟨ts', hts⟩ := wf_obj_shape hobj
    subst hts
    simp only [List.append_eq, List.cons_append, parse_value]
    exact ih tr f (by simp only [List.length_cons] at hf ⊢; omega)
  | arrV harr ih =>
    intro tr fuel hf
    obtain ⟨f, rfl⟩ : ∃ f, fuel = f + 1 := ⟨fuel - 1, by omega⟩
    obtain ⟨ts', hts⟩ := wf_arr_shape harr
    subst hts
    simp only [List.append_eq, List.cons_append, parse_value]
    exact ih tr f (by simp only [List.length_cons] at hf ⊢; omega)
  | objEmpty hw =>
    intro tr fuel hf
    obtain ⟨f, rfl⟩ : ∃ f, fuel = f + 2 := ⟨fuel - 2, by simp at hf; omega⟩
    simp [parse_object, object_loop]
  | objMembers hm ih =>
    intro tr fuel hf
    obtain ⟨f, rfl⟩ : ∃ f, fuel = f + 1 := ⟨fuel - 1, by omega⟩
    simp only [List.append_eq, List.cons_append, parse_object, List.append_assoc, List.singleton_append]
    exact (ih tr f (by simp only [List.length_cons, List.length_append,
      List.length_singleton] at hf ⊢; omega)).1
  | arrEmpty hw =>
    intro tr fuel hf
    obtain ⟨f, rfl⟩ : ∃ f, fuel = f + 2 := ⟨fuel - 2, by simp at hf; omega⟩
    simp [parse_array, array_loop]
  | arrElems he ih =>
    intro tr fuel hf
    obtain ⟨f, rfl⟩ : ∃ f, fuel = f + 1 := ⟨fuel - 1, by omega⟩
    simp only [List.append_eq, List.cons_append, parse_array, List.append_assoc, List.singleton_append]
    exact (ih tr f (by simp only [List.length_cons, List.length_append,
      List.length_singleton] at hf ⊢; omega)).1
  | memberOne h1 hk h2 h3 hv h4 ihv =>
    rename_i w1 k2 w2 w3 csv tsv w4
    intro tr fuel hf
    simp only [List.length_cons] at hf
    obtain ⟨f, rfl⟩ : ∃ f, fuel = f + 1 := ⟨fuel - 1, by omega⟩
    have hpair : parse_pair f (.string ⟨k2⟩ :: .colon :: (tsv ++ .rightBrace :: tr)) =
        .ok (.rightBrace :: tr) := by
      obtain ⟨f1, rfl⟩ : ∃ f1, f = f1 + 1 := ⟨f - 1, by omega⟩
      simp only [parse_pair]
      exact ihv (.rightBrace :: tr) f1 (by omega)
    have hfin : object_loop f false (.rightBrace :: tr) = .ok tr := by
      obtain ⟨f2, rfl⟩ : ∃ f2, f = f2 + 1 := ⟨f - 1, by omega⟩
      simp [object_loop]
    constructor
    · simp only [List.append_eq, List.cons_append, List.append_assoc, object_loop]
      rw [if_neg (by simp)]
      simp only [if_true, List.append_eq, List.cons_append, hpair, hfin]
    · simp only [List.append_eq, List.cons_append, List.append_assoc, object_loop]
      rw [if_neg (by simp), if_neg (by simp)]
      simp only [if_true, List.append_eq, List.cons_append, hpair, hfin]
  | memberCons h1 hk h2 h3 hv h4 hm ihv ihm =>
    rename_i w1 k2 w2 w3 csv tsv w4 cs2 ts2
    intro tr fuel hf
    simp only [List.length_cons, List.length_append] at hf
    obtain ⟨f, rfl⟩ : ∃ f, fuel = f + 1 := ⟨fuel - 1, by omega⟩
    have hpair : parse_pair f
        (.string ⟨k2⟩ :: .colon :: (tsv ++ .comma :: (ts2 ++ .rightBrace :: tr))) =
        .ok (.comma :: (ts2 ++ .rightBrace :: tr)) := by
      obtain ⟨f1, rfl⟩ : ∃ f1, f = f1 + 1 := ⟨f - 1, by omega⟩
      simp only [parse_pair]
      exact ihv (.comma :: (ts2 ++ .rightBrace :: tr)) f1 (by omega)
    have hloop : object_loop f false (.comma :: (ts2 ++ .rightBrace :: tr)) = .ok tr :=
      (ihm tr f (by omega)).2
    constructor
    · simp only [List.append_eq, List.cons_append, List.append_assoc, object_loop]
      rw [if_neg (by simp)]
      simp only [if_true, List.append_eq, List.cons_append, hpair, hloop]
    · simp only [List.append_eq, List.cons_append, List.append_assoc, object_loop]
      rw [if_neg (by simp), if_neg (by simp)]
      simp only [if_true, List.append_eq, List.cons_append, hpair, hloop]
  | elemOne h1 hv h2 ihv =>
    rename_i w1 csv tsv w2
    intro tr fuel hf
    obtain ⟨f, rfl⟩ : ∃ f, fuel = f + 1 := ⟨fuel - 1, by omega⟩
    obtain ⟨t0, ts0, hts0, hne1, hne2, hne3⟩ := wf_value_head hv
    have hval : parse_value f (tsv ++ .rightBracket :: tr) = .ok (.rightBracket :: tr) :=
      ihv (.rightBracket :: tr) f (by omega)
    rw [hts0] at hval
    simp only [List.cons_append] at hval
    have hfin : array_loop f false (.rightBracket :: tr) = .ok tr := by
      obtain ⟨f2, rfl⟩ : ∃ f2, f = f2 + 1 := ⟨f - 1, by omega⟩
      simp [array_loop]
    constructor
    · rw [hts0]
      simp only [List.append_eq, List.cons_append, array_loop]
      rw [if_neg hne2]
      simp only [if_true, List.append_eq, List.cons_append, hval, hfin]
    · rw [hts0]
      simp only [List.append_eq, List.cons_append, array_loop]
      rw [if_neg (by simp), if_neg (by simp)]
      simp only [if_true, List.append_eq, List.cons_append]
      split
      · rename_i heq
        rw [List.cons_eq_cons] at heq
        exact absurd heq.1 hne2
      · simp only [hval, hfin]
  | elemCons h1 hv h2 he2 ihv ihe =>
    rename_i w1 csv tsv w2 cs2 ts2
    intro tr fuel hf
    simp only [List.length_append, List.length_cons] at hf
    obtain ⟨f, rfl⟩ : ∃ f, fuel = f + 1 := ⟨fuel - 1, by omega⟩
    obtain ⟨t0, ts0, hts0, hne1, hne2, hne3⟩ := wf_value_head hv
    have hval : parse_value f (tsv ++ (.comma :: (ts2 ++ .rightBracket :: tr))) =
        .ok (.comma :: (ts2 ++ .rightBracket :: tr)) :=
      ihv (.comma :: (ts2 ++ .rightBracket :: tr)) f (by omega)
    rw [hts0] at hval
    simp only [List.cons_append] at hval
    have hloop : array_loop f false (.comma :: (ts2 ++ .rightBracket :: tr)) = .ok tr :=
      (ihe tr f (by omega)).2
    constructor
    · rw [hts0]
      simp only [List.append_eq, List.cons_append, List.append_assoc, array_loop]
      rw [if_neg hne2]
      simp only [if_true, List.append_eq, List.cons_append, hval, hloop]
    · rw [hts0]
      simp only [List.append_eq, List.cons_append, List.append_assoc, array_loop]
      rw [if_neg (by simp), if_neg (by simp)]
      simp only [if_true, List.append_eq, List.cons_append]
      split
      · rename_i heq
        rw [List.cons_eq_cons] at heq
        exact absurd heq.1 hne2
      · simp only [hval, hloop]

/-! Corollaries of the master lemma, in named form. -/

theorem parse_value_sound {fuel : Nat} {ts r : List Token} (h : parse_value fuel ts = .ok r) :
    ∃ p, ts = p ++ r ∧ Toks .value p :=
  (parser_master fuel).1 ts r h

theorem parse_object_sound {fuel : Nat} {ts r : List Token}
    (h : parse_object fuel ts = .ok r) : ∃ p, ts = p ++ r ∧ Toks .obj p :=
  (parser_master fuel).2.2.1 ts r h

theorem parse_object_error {fuel : Nat} {ts : List Token} {e : String}
    (h : parse_object fuel ts = .error e) :
    e ∈ inner_parse_msgs ∨ (e = "Expected '\x7b'" ∧ ts.head? ≠ some .leftBrace) ∨
      (e = "parser out of fuel" ∧ fuel < 4 * ts.length + 1) :=
  (parser_master fuel).2.2.2.1 ts e h

theorem inner_parse_msgs_subset {e : String} (h : e ∈ inner_parse_msgs) :
    e ∈ parse_error_msgs := by
  simp only [inner_parse_msgs, List.mem_cons, List.not_mem_nil, or_false] at h
  rcases h with rfl | rfl | rfl | rfl | rfl | rfl | rfl <;> simp [parse_error_msgs]

/-! Last-character facts used to refute text-level soundness on inputs
with trailing content. -/

theorem wf_obj_last {cs : List Char} {ts : List Token} (h : WfTT .obj cs ts) :
    cs.getLast? = some '}' := by
  cases h with
  | objEmpty hw =>
    rw [List.getLast?_append_of_ne_nil _ (by simp)]
    rfl
  | objMembers hm =>
    rw [List.getLast?_append_of_ne_nil _ (by simp)]
    rfl

theorem wf_text_last {cs : List Char} (h : WfJsonObjectText cs) :
    ∃ c, cs.getLast? = some c ∧ (c = '}' ∨ json_ws c = true) := by
  obtain ⟨w1, body, w2, ts, hw1, hobj, hw2, rfl⟩ := h
  have hbody := wf_obj_last hobj
  have hbody_ne : body ≠ [] := by
    intro hb
    rw [hb] at hbody
    cases hbody
  cases w2 with
  | nil =>
    refine ⟨'}', ?_, .inl rfl⟩
    rw [List.append_nil, List.getLast?_append_of_ne_nil _ hbody_ne]
    exact hbody
  | cons c2 w2' =>
    cases hcl : (c2 :: w2').getLast? with
    | none =>
      have : (c2 :: w2') ≠ [] := by simp
      rw [List.getLast?_eq_none_iff] at hcl
      exact absurd hcl this
    | some cl =>
      refine ⟨cl, ?_, .inr (hw2 cl (List.mem_of_mem_getLast? hcl))⟩
      rw [List.getLast?_append_of_ne_nil _ (by simp)]
      exact hcl

/-! The claims. -/

/-- C1.  Completeness: for every input text that is a well-formed JSON
object literal using only objects, arrays, strings without escape
sequences or embedded newlines, strict JSON decimal numbers (all of
which Rust's `f64` parser accepts), and the literals `true`, `false`,
`null` — running the lexer followed by `parse_object` (the composition
`parse_json` = the spec's `validate`) returns success. -/
theorem c1_validator_complete : ∀ cs : List Char,
    WfJsonObjectText cs → parse_json ⟨cs⟩ = .ok () := by
  intro cs h
  obtain ⟨w1, body, w2, ts, hw1, hobj, hw2, rfl⟩ := h
  have hw2' : lex_all w2 = .ok [] := by
    rw [← List.append_nil w2, lex_all_ws hw2]
    rfl
  have hfol : Follows w2 := by
    cases w2 with
    | nil => trivial
    | cons c2 w2' => exact .inr (.inr (.inr (hw2 c2 (by simp))))
  have hlex : lex_all (w1 ++ body ++ w2) = .ok ts := by
    rw [List.append_assoc, lex_all_ws hw1, lex_all_wf hobj w2 hfol, hw2']
    simp [Except.map]
  have hparse : parse_object (4 * ts.length + 8) ts = .ok [] := by
    have := parse_complete hobj [] (4 * ts.length + 8) (by omega)
    simpa using this
  show parse_json ⟨w1 ++ body ++ w2⟩ = .ok ()
  simp only [parse_json, hlex, hparse]

/-- Witness for C1 at the concrete input `{}`. -/
theorem c1_witness : WfJsonObjectText ['{', '}'] ∧ parse_json ⟨['{', '}']⟩ = .ok () := by
  have hwf : WfJsonObjectText ['{', '}'] := by
    refine ⟨[], '{' :: [] ++ ['}'], [], [.leftBrace, .rightBrace], ?_,
      WfTT.objEmpty ?_, ?_, by simp⟩
    · intro c hc; cases hc
    · intro c hc; cases hc
    · intro c hc; cases hc
  exact ⟨hwf, c1_validator_complete _ hwf⟩

/-- C2 (amended).  Soundness of `validate` = `parse_json`: on success
the text lexes cleanly and a prefix of its token sequence is a
syntactically valid JSON object per the section 4.2 grammar — trailing
tokens after that object are accepted and ignored by the code — and on
failure the error string is one of the fixed lexical or syntactic
diagnostics of section 7. -/
theorem c2_soundness_amended : ∀ s : String,
    (parse_json s = .ok () →
      ∃ ts pre rest, lex_all s.data = .ok ts ∧ ts = pre ++ rest ∧ Toks .obj pre) ∧
    (∀ e, parse_json s = .error e → e ∈ lex_error_msgs ∨ e ∈ parse_error_msgs) := by
  intro s
  cases hlex : lex_all s.data with
  | error e0 =>
    constructor
    · intro h
      simp only [parse_json, hlex] at h
      simp at h
    · intro e h
      simp only [parse_json, hlex, Except.error.injEq] at h
      subst h
      exact .inl (lex_all_error hlex)
  | ok ts =>
    cases hp : parse_object (4 * ts.length + 8) ts with
    | ok r =>
      constructor
      · intro h
        obtain ⟨pre, hpre, htoks⟩ := parse_object_sound hp
        exact ⟨ts, pre, r, rfl, hpre, htoks⟩
      · intro e h
        simp only [parse_json, hlex, hp] at h
        simp at h
    | error e0 =>
      constructor
      · intro h
        simp only [parse_json, hlex, hp] at h
        simp at h
      · intro e h
        simp only [parse_json, hlex, hp, Except.error.injEq] at h
        subst h
        rcases parse_object_error hp with hm | ⟨he, -⟩ | ⟨-, hb⟩
        · exact .inr (inner_parse_msgs_subset hm)
        · subst he
          exact .inr (by simp [parse_error_msgs])
        · omega

/-- Counterexample to C2 as stated: the input `\x7b\x7d1` — an empty
object followed by the trailing token `1` — is accepted by the
validator, yet it is not a syntactically valid JSON object (with
optional surrounding whitespace) at the text level: its last character
is `1`, while every well-formed text ends in `\x7d` or whitespace. -/
theorem c2_counterexample :
    parse_json "\x7b\x7d1" = .ok () ∧ ¬ WfJsonObjectText ("\x7b\x7d1".data) := by
  constructor
  · rfl
  · intro h
    obtain ⟨c, hc, hd⟩ := wf_text_last h
    have : c = '1' := by
      have he : ("\x7b\x7d1".data).getLast? = some '1' := rfl
      rw [he] at hc
      exact (Option.some.injEq _ _ ▸ hc).symm
    subst this
    rcases hd with h1 | h1
    · cases h1
    · cases h1

/-- Witness for the amended C2 at the concrete input `\x7b\x7d`. -/
theorem c2_witness : ∃ ts pre rest, lex_all ("\x7b\x7d".data) = .ok ts ∧
    ts = pre ++ rest ∧ Toks .obj pre :=
  (c2_soundness_amended "\x7b\x7d").1 rfl

/-- C3.  Running out of tokens while still inside an object or array
loop — the closing delimiter never seen — fails with `Unexpected end of
input`, for every fuel and loop state; in particular the truncated
input `\x7b"key": "value"` (no closing brace) fails with exactly that
error. -/
theorem c3_unexpected_end :
    (∀ (fuel : Nat) (first : Bool),
      object_loop fuel first [] = .error "Unexpected end of input" ∧
      array_loop fuel first [] = .error "Unexpected end of input") ∧
    parse_json "\x7b\"key\": \"value\"" = .error "Unexpected end of input" := by
  refine ⟨?_, rfl⟩
  intro fuel first
  cases fuel <;> exact ⟨rfl, rfl⟩

/-- C4.  The trailing-comma rule, identical for objects and arrays: a
comma consumed in the after-element state whose next token is the
closing delimiter fails with `Trailing comma not allowed`; the two
example inputs produce exactly this error; and the closer-check
precedes the comma-check precedes the else-error in both loops — in
particular a closing delimiter is accepted in either loop state, before
the comma or else branches are consulted. -/
theorem c4_trailing_comma :
    (∀ (fuel : Nat) (rest : List Token),
      object_loop (fuel + 1) false (.comma :: .rightBrace :: rest) =
        .error "Trailing comma not allowed") ∧
    (∀ (fuel : Nat) (rest : List Token),
      array_loop (fuel + 1) false (.comma :: .rightBracket :: rest) =
        .error "Trailing comma not allowed") ∧
    parse_json "\x7b\"k\":\"v\",\x7d" = .error "Trailing comma not allowed" ∧
    parse_json "\x7b\"a\":[1,2,]\x7d" = .error "Trailing comma not allowed" ∧
    (∀ (fuel : Nat) (first : Bool) (rest : List Token),
      object_loop (fuel + 1) first (.rightBrace :: rest) = .ok rest) ∧
    (∀ (fuel : Nat) (first : Bool) (rest : List Token),
      array_loop (fuel + 1) first (.rightBracket :: rest) = .ok rest) := by
  refine ⟨?_, ?_, rfl, rfl, ?_, ?_⟩
  · intro fuel rest
    simp [object_loop]
  · intro fuel rest
    simp [array_loop]
  · intro fuel first rest
    simp [object_loop]
  · intro fuel first rest
    simp [array_loop]

/-- C5.  String lexing: after the opening quote, `lex_string`
accumulates characters verbatim until a closing quote; a backslash
fails with the escape-sequences-unsupported diagnostic; a raw newline
before the closing quote, or end of input without a closing quote,
fails with `Unterminated string literal`. -/
theorem c5_lex_string : ∀ (pre rest : List Char), StrChars pre →
    lex_string (pre ++ '"' :: rest) = .ok (⟨pre⟩, rest) ∧
    lex_string (pre ++ '\\' :: rest) = .error "Escape sequences not yet supported" ∧
    lex_string (pre ++ '\n' :: rest) = .error "Unterminated string literal" ∧
    lex_string pre = .error "Unterminated string literal" := by
  intro pre rest h
  exact ⟨lex_string_complete rest h, lex_string_escape rest h,
    lex_string_newline rest h, lex_string_eof h⟩

/-- Witness for C5 at the concrete body `a`. -/
theorem c5_witness : StrChars ['a'] ∧
    (lex_string (['a'] ++ '"' :: []) = .ok (⟨['a']⟩, []) ∧
     lex_string (['a'] ++ '\\' :: []) = .error "Escape sequences not yet supported" ∧
     lex_string (['a'] ++ '\n' :: []) = .error "Unterminated string literal" ∧
     lex_string ['a'] = .error "Unterminated string literal") := by
  have h : StrChars ['a'] := by
    intro c hc
    rw [List.mem_singleton] at hc
    subst hc
    decide
  exact ⟨h, c5_lex_string ['a'] [] h⟩

/-- C6.  Number lexing: at a position whose next character is an ASCII
digit or `-`, the lexer consumes the maximal run of characters from
the set of digits and `-`, `.`, `e`, `E`, `+`, and fails with `Invalid
number format` exactly when that run is not accepted by Rust's 64-bit
float parser (modelled by `f64_syntax_valid`); otherwise it emits a
`number` token carrying the run (from which the `f64` value is
parsed).  The example `\x7b"k":12.34.56\x7d` fails with exactly this
error. -/
theorem c6_lex_number : ∀ (c : Char) (cs : List Char), (c.isDigit || c == '-') = true →
    (lex_step (c :: cs) =
      (if f64_syntax_valid ((c :: cs).takeWhile is_number_char) then
        .ok (some (.number ⟨(c :: cs).takeWhile is_number_char⟩),
          (c :: cs).dropWhile is_number_char)
      else .error "Invalid number format")) ∧
    parse_json "\x7b\"k\":12.34.56\x7d" = .error "Invalid number format" := by
  intro c cs h
  refine ⟨?_, rfl⟩
  rw [lex_step_num cs h]
  simp only [lex_number, read_while_eq_take_drop]
  by_cases hv : f64_syntax_valid ((c :: cs).takeWhile is_number_char)
  · rw [if_pos hv, if_pos hv]
  · rw [if_neg hv, if_neg hv]

/-- Witness for C6 at the concrete input `1`. -/
theorem c6_witness : ('1'.isDigit || '1' == '-') = true ∧
    (lex_step ['1'] =
      (if f64_syntax_valid (['1'].takeWhile is_number_char) then
        .ok (some (.number ⟨['1'].takeWhile is_number_char⟩),
          ['1'].dropWhile is_number_char)
      else .error "Invalid number format")) ∧
    parse_json "\x7b\"k\":12.34.56\x7d" = .error "Invalid number format" := by
  have h : ('1'.isDigit || '1' == '-') = true := by decide
  exact ⟨h, c6_lex_number '1' [] h⟩

/-- C7.  Identifier lexing: at a position whose next character is an
ASCII letter, the lexer consumes the maximal run of ASCII letters and
compares it case-sensitively against exactly `true`, `false` and
`null`, emitting the corresponding token on a match and failing with
`Invalid identifier` otherwise; the unquoted-key and `True` examples
fail with exactly that error. -/
theorem c7_lex_identifier : ∀ (c : Char) (cs : List Char), c.isAlpha = true →
    (lex_step (c :: cs) =
      match lex_identifier (c :: cs) with
      | .ok (t, r) => .ok (some t, r)
      | .error e => .error e) ∧
    (lex_identifier (c :: cs) =
      (if (⟨(c :: cs).takeWhile Char.isAlpha⟩ : String) = "true" then
        .ok (.boolean true, (c :: cs).dropWhile Char.isAlpha)
      else if (⟨(c :: cs).takeWhile Char.isAlpha⟩ : String) = "false" then
        .ok (.boolean false, (c :: cs).dropWhile Char.isAlpha)
      else if (⟨(c :: cs).takeWhile Char.isAlpha⟩ : String) = "null" then
        .ok (.null, (c :: cs).dropWhile Char.isAlpha)
      else .error "Invalid identifier")) ∧
    parse_json "\x7bkey:\"value\"\x7d" = .error "Invalid identifier" ∧
    parse_json "\x7b\"k\":True\x7d" = .error "Invalid identifier" := by
  intro c cs h
  refine ⟨lex_step_alpha cs h, ?_, rfl, rfl⟩
  simp only [lex_identifier, read_while_eq_take_drop]
  split
  · rename_i heq
    rw [heq]
    simp
  · rename_i heq
    rw [heq]
    simp
  · rename_i heq
    rw [heq]
    simp
  · rename_i hne1 hne2 hne3
    rw [if_neg hne1, if_neg hne2, if_neg hne3]

/-- Witness for C7 at the concrete input `x`. -/
theorem c7_witness : ('x'.isAlpha) = true ∧
    ((lex_step ['x'] =
      match lex_identifier ['x'] with
      | .ok (t, r) => .ok (some t, r)
      | .error e => .error e) ∧
    (lex_identifier ['x'] =
      (if (⟨['x'].takeWhile Char.isAlpha⟩ : String) = "true" then
        .ok (.boolean true, ['x'].dropWhile Char.isAlpha)
      else if (⟨['x'].takeWhile Char.isAlpha⟩ : String) = "false" then
        .ok (.boolean false, ['x'].dropWhile Char.isAlpha)
      else if (⟨['x'].takeWhile Char.isAlpha⟩ : String) = "null" then
        .ok (.null, ['x'].dropWhile Char.isAlpha)
      else .error "Invalid identifier")) ∧
    parse_json "\x7bkey:\"value\"\x7d" = .error "Invalid identifier" ∧
    parse_json "\x7b\"k\":True\x7d" = .error "Invalid identifier") := by
  have h : ('x'.isAlpha) = true := by decide
  exact ⟨h, c7_lex_identifier 'x' [] h⟩

/-- C8.  Lexer totality and progress: every successful `lex_step` on a
nonempty input consumes at least one character and leaves a suffix of
the input (the cursor only moves forward); consequently one fuel unit
per character is enough, i.e. `lex_tokens` computes `lex_all` for any
fuel of at least the input length (this is the termination argument of
the Rust loop), and the lexer's fuel sentinel never escapes: every
`lex_all` error is a real lexical diagnostic.  The parser's cursor
never rewinds either: a successful `parse_value` returns a suffix of
its input tokens. -/
theorem c8_lexer_progress :
    (∀ (c : Char) (cs : List Char) (ot : Option Token) (rest : List Char),
      lex_step (c :: cs) = .ok (ot, rest) → rest.length ≤ cs.length ∧ rest <:+ (c :: cs)) ∧
    (∀ (cs : List Char) (fuel : Nat), cs.length ≤ fuel → lex_tokens fuel cs = lex_all cs) ∧
    (∀ (cs : List Char) (e : String), lex_all cs = .error e → e ∈ lex_error_msgs) ∧
    (∀ (fuel : Nat) (ts r : List Token), parse_value fuel ts = .ok r → r <:+ ts) := by
  refine ⟨?_, ?_, ?_, ?_⟩
  · intro c cs ot rest h
    exact lex_step_progress h
  · intro cs fuel h
    exact lex_tokens_fuel cs.length cs (le_refl _) fuel h
  · intro cs e h
    exact lex_all_error h
  · intro fuel ts r h
    obtain ⟨p, hp, -⟩ := parse_value_sound h
    exact ⟨p, hp.symm⟩

/-- Witness for C8: the input `-` lexes in one step (the maximal run
`-` fails the float parse), and one unit of fuel suffices for the
one-character input `[`. -/
theorem c8_witness : (['['].length ≤ 5 ∧ lex_tokens 5 ['['] = lex_all ['[']) ∧
    (lex_step ['{'] = .ok (some .leftBrace, []) →
      ([] : List Char).length ≤ ([] : List Char).length ∧ ([] : List Char) <:+ ['{']) := by
  constructor
  · exact ⟨by decide, c8_lexer_progress.2.1 ['['] 5 (by decide)⟩
  · intro h
    exact c8_lexer_progress.1 '{' [] (some .leftBrace) [] h

/-- C9.  Determinism: `parse_json` (the spec's `validate`) is a pure
function of the input text, so two runs on the same text produce
identical results — the same verdict and, on rejection, the identical
error message. -/
theorem c9_validate_deterministic : ∀ (s : String) (r1 r2 : Except String Unit),
    parse_json s = r1 → parse_json s = r2 → r1 = r2 := by
  intro s r1 r2 h1 h2
  rw [← h1, h2]

/-- Witness for C9 at the concrete input `\x7b\x7d`. -/
theorem c9_witness : (Except.ok () : Except String Unit) = Except.ok () :=
  c9_validate_deterministic "\x7b\x7d" (.ok ()) (.ok ()) rfl rfl

/-- C10.  The message `Expected '['` is unreachable through `validate`:
`parse_array` is only ever invoked by `parse_value` when the one-token
lookahead is already an opening bracket, so its missing-open-bracket
branch never fires, and `parse_json` never returns that error for any
input. -/
theorem c10_no_expected_lbracket : ∀ s : String, parse_json s ≠ .error "Expected '['" := by
  intro s h
  cases hlex : lex_all s.data with
  | error e0 =>
    simp only [parse_json, hlex, Except.error.injEq] at h
    subst h
    have := lex_all_error hlex
    simp [lex_error_msgs] at this
  | ok ts =>
    cases hp : parse_object (4 * ts.length + 8) ts with
    | ok r =>
      simp only [parse_json, hlex, hp] at h
      simp at h
    | error e0 =>
      simp only [parse_json, hlex, hp, Except.error.injEq] at h
      subst h
      rcases parse_object_error hp with hm | ⟨he, -⟩ | ⟨-, hb⟩
      · simp [inner_parse_msgs] at hm
      · simp at he
      · omega

end JsonV
